import Mathlib

/-!
Verification of the inverse-design core of the phantom-material database
(`src/app/inverse_design_app.py` and
`src/scripts/plot_elastic_modulus_vs_thinner_concentration.py`).

Floating-point numbers of the source are embedded as exact rationals `ℚ`;
numpy arrays as `List`s.  The PCHIP construction (`scipy.interpolate.
PchipInterpolator`) is embedded from its algorithm: slopes between knots,
the Fritsch–Butland style weighted-harmonic-mean interior derivatives, the
one-sided three-point edge derivatives with shape-preserving clipping, and
piecewise cubic Hermite evaluation.  `extrapolate=False` (NaN outside the
knot span) is embedded as an `Option` that is `none` strictly outside the
domain.  The bracketed root finder (`scipy.optimize.brentq`, an external
dependency) is modelled from the spec as a bracketed bisection-family
method with the same bracket precondition (error when the function has
the same nonzero sign at both ends, immediate return on an exact zero).
-/

/-- np.sign on rationals: 1, -1 or 0. -/
def qsign (x : ℚ) : ℚ :=
  if 0 < x then 1 else if x < 0 then -1 else 0

/-- One-sided three-point edge derivative with clipping, from
`PchipInterpolator._edge_case(h0, h1, m0, m1)`:
`d = ((2h0+h1)m0 - h0*m1)/(h0+h1)`, set to `0` when its sign differs from
`sign m0`, and clipped to `3*m0` when `sign m0 ≠ sign m1` and `|d| > 3|m0|`. -/
def edgeCase (h0 h1 m0 m1 : ℚ) : ℚ :=
  let d := ((2 * h0 + h1) * m0 - h0 * m1) / (h0 + h1)
  if qsign d ≠ qsign m0 then 0
  else if qsign m0 ≠ qsign m1 ∧ 3 * |m0| < |d| then 3 * m0
  else d

/-- Interior derivative at the knot between two segments `(h0, m0)` and
`(h1, m1)`, from `PchipInterpolator._find_derivatives`: `0` when the slopes
change sign or one vanishes (`mk[:-1]`/`mk[1:]` condition), otherwise the
weighted harmonic mean `1/d = (w1/m0 + w2/m1)/(w1+w2)` with
`w1 = 2*h1 + h0`, `w2 = h1 + 2*h0`. -/
def interD1 (p0 p1 : ℚ × ℚ) : ℚ :=
  let h0 := p0.1; let m0 := p0.2
  let h1 := p1.1; let m1 := p1.2
  if m0 * m1 ≤ 0 then 0
  else
    let w1 := 2 * h1 + h0
    let w2 := h1 + 2 * h0
    (w1 + w2) / (w1 / m0 + w2 / m1)

/-- Interval widths and slopes `(hk, mk)` of consecutive knots, from
`hk = x[1:] - x[:-1]`, `mk = (y[1:] - y[:-1]) / hk`. -/
def hms : List (ℚ × ℚ) → List (ℚ × ℚ)
  | (t0, y0) :: (t1, y1) :: rest =>
      (t1 - t0, (y1 - y0) / (t1 - t0)) :: hms ((t1, y1) :: rest)
  | _ => []

/-- Derivatives at knots `1 .. n-1` given the `(h, m)` list: the interior
knots get `interD1` of their two adjacent segments, and the final knot gets
the reversed edge formula `edgeCase h_last h_secondlast m_last m_secondlast`. -/
def derivsFrom : List (ℚ × ℚ) → List ℚ
  | [] => []
  | [_] => []
  | [p0, p1] => [interD1 p0 p1, edgeCase p1.1 p0.1 p1.2 p0.2]
  | p0 :: p1 :: p2 :: rest => interD1 p0 p1 :: derivsFrom (p1 :: p2 :: rest)

/-- Knot derivatives of the PCHIP interpolant, from
`PchipInterpolator._find_derivatives`: for two points both derivatives are
the single slope (linear case), otherwise the first knot gets the edge
formula, interior knots the weighted harmonic mean, and the last knot the
reversed edge formula. -/
def pchipDerivs (pts : List (ℚ × ℚ)) : List ℚ :=
  match hms pts with
  | [] => []
  | [(_, m)] => [m, m]
  | (h0, m0) :: (h1, m1) :: rest =>
      edgeCase h0 h1 m0 m1 :: derivsFrom ((h0, m0) :: (h1, m1) :: rest)

/-- Cubic Hermite segment on `[t0, t1]` with values `y0, y1` and derivatives
`d0, d1`, in the power basis used by `CubicHermiteSpline`:
`c3 = y0`, `c2 = d0`, `c1 = (m - d0)/h - t`, `c0 = t/h` with
`t = (d0 + d1 - 2m)/h`, evaluated at `s = x - t0`. -/
def hermite (t0 y0 d0 t1 y1 d1 x : ℚ) : ℚ :=
  let h := t1 - t0
  let m := (y1 - y0) / h
  let s := x - t0
  y0 + d0 * s + ((3 * m - 2 * d0 - d1) / h) * s ^ 2
    + ((d0 + d1 - 2 * m) / h ^ 2) * s ^ 3

/-- Derivative of the `hermite` segment with respect to the evaluation
point, used to state and prove the shape-preservation lemmas. -/
def hermQ (t0 y0 d0 t1 y1 d1 x : ℚ) : ℚ :=
  let h := t1 - t0
  let m := (y1 - y0) / h
  let s := x - t0
  d0 + 2 * ((3 * m - 2 * d0 - d1) / h) * s
    + 3 * ((d0 + d1 - 2 * m) / h ^ 2) * s ^ 2

/-- Segment derivative scaled by `h^3`: the polynomial form of `hermQ` used
in the shape-preservation proofs (`h` interval width, `Δ` value increment). -/
def Tpoly (h Δ d0 d1 s : ℚ) : ℚ :=
  h ^ 3 * d0 + 6 * Δ * h * s - 2 * h ^ 2 * (2 * d0 + d1) * s
    + 3 * h * (d0 + d1) * s ^ 2 - 6 * Δ * s ^ 2

/-- Piecewise evaluation of the interpolant: the first segment whose right
knot is `≥ x` is used (for `x` in the knot span this agrees with `PPoly`
evaluation, the two candidate segments at a knot sharing the knot value). -/
def evalSeg : List (ℚ × ℚ) → List ℚ → ℚ → ℚ
  | (t0, y0) :: (t1, y1) :: rest, d0 :: d1 :: ds, x =>
      if x ≤ t1 then hermite t0 y0 d0 t1 y1 d1 x
      else evalSeg ((t1, y1) :: rest) (d1 :: ds) x
  | _, _, _ => 0

/-- First knot abscissa (helper for stating domain facts). -/
def headT : List (ℚ × ℚ) → ℚ
  | (t, _) :: _ => t
  | [] => 0

/-- Last knot abscissa (helper for stating domain facts). -/
def lastT : List (ℚ × ℚ) → ℚ
  | [] => 0
  | [(t, _)] => t
  | _ :: p :: rest => lastT (p :: rest)

/-- np.min of a nonempty list (`0` for the empty list, which the source
never queries). -/
def npMin : List ℚ → ℚ
  | [] => 0
  | x :: xs => xs.foldl min x

/-- np.max of a nonempty list. -/
def npMax : List ℚ → ℚ
  | [] => 0
  | x :: xs => xs.foldl max x

/-- One parsed measurement row `(label, family, thinner_pct, E_mean)`. -/
structure Phantom where
  label : String
  family : String
  thinner : ℚ
  E : ℚ
deriving DecidableEq, Repr

/-- Per-family model as assembled by `build_family_models`: jointly sorted
`t`/`E`/`labels` arrays, the interpolant data, and the domain/range bounds. -/
structure FamilyModel where
  pts : List (ℚ × ℚ)
  labels : List String
  derivs : List ℚ
  tmin : ℚ
  tmax : ℚ
  Emin : ℚ
  Emax : ℚ
deriving DecidableEq, Repr

/-- Errors raised while building models.  A family with fewer than two
points makes `PchipInterpolator` raise (it indexes `hk[0]` of an empty
difference array); duplicate concentrations make the spline constructor
raise its strictly-increasing check. -/
inductive BuildError where
  | tooFewPoints (fam : String)
  | notStrictlyIncreasing (fam : String)
deriving DecidableEq, Repr

/-- Sort triples `(t, E, label)` by concentration (np.argsort). -/
def sortByT (l : List (ℚ × ℚ × String)) : List (ℚ × ℚ × String) :=
  l.insertionSort (fun a b => a.1 ≤ b.1)

/-- Build one family's model: sort by concentration, require at least two
knots and strictly increasing concentrations (otherwise scipy raises), then
store the interpolant data and `t.min/t.max/E.min/E.max`. -/
def mkModel (fam : String) (raw : List (ℚ × ℚ × String)) :
    Except BuildError FamilyModel :=
  let s := sortByT raw
  let pts : List (ℚ × ℚ) := s.map (fun r => (r.1, r.2.1))
  if pts.length < 2 then .error (.tooFewPoints fam)
  else if ¬ List.Chain' (· < ·) (pts.map Prod.fst) then
    .error (.notStrictlyIncreasing fam)
  else
    .ok { pts := pts
          labels := s.map (fun r => r.2.2)
          derivs := pchipDerivs pts
          tmin := npMin (pts.map Prod.fst)
          tmax := npMax (pts.map Prod.fst)
          Emin := npMin (pts.map Prod.snd)
          Emax := npMax (pts.map Prod.snd) }

/-- `families.setdefault(fam, ...)` followed by appends: add one phantom to
the accumulated per-family association list (insertion-ordered, like a
Python dict). -/
def addPhantom (acc : List (String × List (ℚ × ℚ × String))) (p : Phantom) :
    List (String × List (ℚ × ℚ × String)) :=
  if acc.any (fun g => g.1 = p.family) then
    acc.map (fun g =>
      if g.1 = p.family then (g.1, g.2 ++ [(p.thinner, p.E, p.label)]) else g)
  else acc ++ [(p.family, [(p.thinner, p.E, p.label)])]

/-- Group the phantom rows by family in first-appearance order. -/
def groupByFamily (ph : List Phantom) : List (String × List (ℚ × ℚ × String)) :=
  ph.foldl addPhantom []

/-- Build every family's model in turn; an exception for one family aborts
the whole loop, as in the source's `for fam, d in families.items()`. -/
def buildAll : List (String × List (ℚ × ℚ × String)) →
    Except BuildError (List (String × FamilyModel))
  | [] => .ok []
  | (fam, raw) :: rest =>
      match mkModel fam raw with
      | .error e => .error e
      | .ok fm =>
          match buildAll rest with
          | .error e => .error e
          | .ok ms => .ok ((fam, fm) :: ms)

/-- `build_family_models(phantoms)`. -/
def build_family_models (ph : List Phantom) :
    Except BuildError (List (String × FamilyModel)) :=
  buildAll (groupByFamily ph)

/-- The `(t, E, label)` triples of one family's phantoms in file order; the
reference value of a family's group in `groupByFamily`. -/
def famPoints (ph : List Phantom) (fam : String) : List (ℚ × ℚ × String) :=
  (ph.filter (fun p => p.family = fam)).map (fun p => (p.thinner, p.E, p.label))

/-- Evaluation of the family interpolant built with `extrapolate=False`:
strictly outside `[tmin, tmax]` scipy produces NaN (no numeric value),
embedded as `none`; inside the span the piecewise cubic value is returned. -/
def interpEval (fm : FamilyModel) (x : ℚ) : Option ℚ :=
  if x < fm.tmin ∨ fm.tmax < x then none
  else some (evalSeg fm.pts fm.derivs x)

/-- Failures of the inversion step.  `bracketFailure` is scipy `brentq`'s
"f(a) and f(b) must have different signs" error; `infeasibleTarget` is the
spec's `InfeasibleTargetError` (§7), listed so that claims about it can be
stated — the source never raises any feasibility error of its own inside
`invert_family`. -/
inductive InvertError where
  | bracketFailure
  | infeasibleTarget
deriving DecidableEq, Repr

/-- Iteration budget of the root finder (scipy `brentq` default `maxiter`). -/
def brentqMaxIter : ℕ := 100

/-- Bisection loop on a bracket `[a, b]`: stop on an exact zero, otherwise
keep the half bracket on which the sign changes; return the midpoint of the
final bracket. -/
def bisect (g : ℚ → ℚ) : ℕ → ℚ → ℚ → ℚ
  | 0, a, b => (a + b) / 2
  | n + 1, a, b =>
      let m := (a + b) / 2
      if g m = 0 then m
      else if g a * g m < 0 then bisect g n a m
      else bisect g n m b

/-- Modelled from the spec: the bracketed bisection-family root finder of
§4.3 stands in for `scipy.optimize.brentq`, which is an external library
whose code is not part of this repository.  Like `brentq` it returns an
endpoint that is an exact root, raises when `g` has the same nonzero sign
at both bracket ends, and otherwise searches inside `[a, b]`. -/
def brentqBisect (g : ℚ → ℚ) (a b : ℚ) : Except InvertError ℚ :=
  if g a = 0 then .ok a
  else if g b = 0 then .ok b
  else if 0 < g a * g b then .error .bracketFailure
  else .ok (bisect g brentqMaxIter a b)

/-- `invert_family(family_model, E_target)`: root of `f(t) - E_target`
bracketed by `[tmin, tmax]`, returned with the interpolant's value there. -/
def invert_family (fm : FamilyModel) (Etar : ℚ) : Except InvertError (ℚ × ℚ) :=
  match brentqBisect (fun t => evalSeg fm.pts fm.derivs t - Etar) fm.tmin fm.tmax with
  | .error e => .error e
  | .ok ts => .ok (ts, evalSeg fm.pts fm.derivs ts)

/-- One entry of `all_measured`: `(E, label, fam, t)`. -/
abbrev Meas := ℚ × String × String × ℚ

/-- Fold of the `nearest_bounds` loop body over the remaining measurements:
`lower` is overwritten by every element with `E <= target`, `upper` is set
by the first element with `E >= target`. -/
def nbAux (tgt : ℚ) : Option Meas → Option Meas → List Meas → Option Meas × Option Meas
  | lo, up, [] => (lo, up)
  | lo, up, m :: rest =>
      nbAux tgt (if m.1 ≤ tgt then some m else lo)
        (if tgt ≤ m.1 ∧ up = none then some m else up) rest

/-- `nearest_bounds(all_measured, E_target)`. -/
def nearest_bounds (all_measured : List Meas) (Etar : ℚ) :
    Option Meas × Option Meas :=
  nbAux Etar none none all_measured

/-- The feasibility comprehension of the app:
`[fam for fam, d in families.items() if d["Emin"] <= E_target <= d["Emax"]]`. -/
def feasible (families : List (String × FamilyModel)) (Etar : ℚ) : List String :=
  (families.filter (fun fd => decide (fd.2.Emin ≤ Etar ∧ Etar ≤ fd.2.Emax))).map
    Prod.fst

/-- Split a character list at the first occurrence of `sep`:
`python s.split(sep, 1)` gives the prefix and, when `sep` occurs, the
remainder (`none` models the one-element result whose index `[1]` raises). -/
def breakAtFirst (sep : Char) : List Char → List Char × Option (List Char)
  | [] => ([], none)
  | c :: rest =>
      if c = sep then ([], some rest)
      else
        let r := breakAtFirst sep rest
        (c :: r.1, r.2)

/-- Split at every occurrence of `sep` (`python s.split(sep)`). -/
def splitAll (sep : Char) : List Char → List (List Char)
  | [] => [[]]
  | c :: rest =>
      let r := splitAll sep rest
      if c = sep then [] :: r
      else
        match r with
        | h :: t => (c :: h) :: t
        | [] => [[c]]

/-- Accumulate decimal digits left to right; `none` on a non-digit. -/
def natAux (acc : ℕ) : List Char → Option ℕ
  | [] => some acc
  | c :: rest =>
      if c.isDigit then natAux (10 * acc + (c.toNat - 48)) rest else none

/-- Python `float()` restricted to the unsigned decimal literals produced by
the label grammar: digits with at most one decimal point (at least one digit
overall); anything else fails like `float()` raising `ValueError`. -/
def parseDecimal (l : List Char) : Option ℚ :=
  match splitAll '.' l with
  | [ip] =>
      if ip = [] then none else (natAux 0 ip).map (fun n => (n : ℚ))
  | [ip, fp] =>
      if ip = [] ∧ fp = [] then none
      else
        match natAux 0 ip, natAux 0 fp with
        | some i, some f => some ((i : ℚ) + (f : ℚ) / (10 : ℚ) ^ fp.length)
        | _, _ => none
  | _ => none

/-- `parse_thinner_from_label` of the app:
`label.split("_", 1)[1].replace("T", "").replace("_", ".")` then `float`. -/
def parse_thinner_from_label (label : String) : Option ℚ :=
  match (breakAtFirst '_' label.toList).2 with
  | none => none
  | some rest =>
      parseDecimal ((rest.filter (fun c => ¬ c = 'T')).map
        (fun c => if c = '_' then '.' else c))

/-- Family token of the app: `label.split("_", 1)[0]`. -/
def family_from_label (label : String) : String :=
  ⟨(breakAtFirst '_' label.toList).1⟩

/-- `thinner_str` of the plot script:
`label.split("_")[1].replace("T", "").replace("_", ".")` then `float`
(note: `split("_")` splits at every underscore, unlike the app). -/
def script_thinner_from_label (label : String) : Option ℚ :=
  match (splitAll '_' label.toList).get? 1 with
  | none => none
  | some piece =>
      parseDecimal ((piece.filter (fun c => ¬ c = 'T')).map
        (fun c => if c = '_' then '.' else c))

/-- Family token of the plot script: `label.split("_")[0]`. -/
def script_family_from_label (label : String) : String :=
  ⟨((splitAll '_' label.toList).headI)⟩

/-- Concrete dataset with one family of three strictly increasing
measurements, used to instantiate the theorems below. -/
def phIncr : List Phantom :=
  [⟨"F1_0T", "F1", 0, 10⟩, ⟨"F1_1T", "F1", 1, 20⟩, ⟨"F1_2T", "F1", 2, 40⟩]

/-- The model `build_family_models` constructs from `phIncr`. -/
def fmIncr : FamilyModel :=
  { pts := [(0, 10), (1, 20), (2, 40)]
    labels := ["F1_0T", "F1_1T", "F1_2T"]
    derivs := [5, 40 / 3, 25]
    tmin := 0
    tmax := 2
    Emin := 10
    Emax := 40 }

/-- Concrete dataset whose measured values are monotone (nondecreasing) but
not strictly monotone: the plateau between concentrations 1 and 2. -/
def phPlat : List Phantom :=
  [⟨"F3_0T", "F3", 0, 0⟩, ⟨"F3_1T", "F3", 1, 1⟩,
   ⟨"F3_2T", "F3", 2, 1⟩, ⟨"F3_3T", "F3", 3, 2⟩]

/-- The model `build_family_models` constructs from `phPlat`. -/
def fmPlat : FamilyModel :=
  { pts := [(0, 0), (1, 1), (2, 1), (3, 2)]
    labels := ["F3_0T", "F3_1T", "F3_2T", "F3_3T"]
    derivs := [3 / 2, 0, 0, 3 / 2]
    tmin := 0
    tmax := 3
    Emin := 0
    Emax := 2 }

/-- Concrete dataset with one well-formed two-point family `F1` and one
single-point family `F2`. -/
def phMix : List Phantom :=
  [⟨"F1_0T", "F1", 0, 10⟩, ⟨"F1_1T", "F1", 1, 20⟩, ⟨"F2_5T", "F2", 5, 30⟩]

/-- Concrete sorted global measurement index for `nearest_bounds`. -/
def measIdx : List Meas :=
  [(10, "F1_0T", "F1", 0), (20, "F1_1T", "F1", 1), (40, "F1_2T", "F1", 2)]

/-- Segment-wise well-formedness of a knot/derivative pairing for
nondecreasing data: on every segment the knots strictly increase, the
values do not decrease, and both endpoint derivatives `d` satisfy the
Fritsch–Carlson window `0 ≤ d` and `d * h ≤ 3 * Δ`. -/
inductive SegOK : List (ℚ × ℚ) → List ℚ → Prop where
  | two {t0 y0 t1 y1 d0 d1 : ℚ} :
      t0 < t1 → y0 ≤ y1 →
      0 ≤ d0 → d0 * (t1 - t0) ≤ 3 * (y1 - y0) →
      0 ≤ d1 → d1 * (t1 - t0) ≤ 3 * (y1 - y0) →
      SegOK [(t0, y0), (t1, y1)] [d0, d1]
  | cons {t0 y0 t1 y1 d0 d1 : ℚ} {ps : List (ℚ × ℚ)} {ds : List ℚ} :
      t0 < t1 → y0 ≤ y1 →
      0 ≤ d0 → d0 * (t1 - t0) ≤ 3 * (y1 - y0) →
      0 ≤ d1 → d1 * (t1 - t0) ≤ 3 * (y1 - y0) →
      SegOK ((t1, y1) :: ps) (d1 :: ds) →
      SegOK ((t0, y0) :: (t1, y1) :: ps) (d0 :: d1 :: ds)

theorem Tpoly_nonneg (h Δ d0 d1 s : ℚ) (hh : 0 < h) (hs0 : 0 ≤ s) (hsh : s ≤ h)
    (hd00 : 0 ≤ d0) (hd03 : d0 * h ≤ 3 * Δ) (hd10 : 0 ≤ d1) (hd13 : d1 * h ≤ 3 * Δ) :
    0 ≤ Tpoly h Δ d0 d1 s := by
  have hΔ : 0 ≤ Δ := by nlinarith
  rcases le_total (3 * s) h with hr | hr
  · have e : Tpoly h Δ d0 d1 s =
        h * d0 * ((h - s) * (h - 3 * s)) + (3 * Δ - d1 * h) * (s * (2 * h - 3 * s))
          + 3 * Δ * s ^ 2 := by simp only [Tpoly]; ring
    rw [e]
    have h1 : 0 ≤ h * d0 * ((h - s) * (h - 3 * s)) := by
      apply mul_nonneg (mul_nonneg hh.le hd00)
      apply mul_nonneg <;> linarith
    have h2 : 0 ≤ (3 * Δ - d1 * h) * (s * (2 * h - 3 * s)) := by
      apply mul_nonneg (by linarith)
      apply mul_nonneg hs0; linarith
    nlinarith [sq_nonneg s]
  · rcases le_total (3 * s) (2 * h) with hr2 | hr2
    · have e : Tpoly h Δ d0 d1 s =
          (3 * Δ - d0 * h) * ((h - s) * (3 * s - h))
            + (3 * Δ - d1 * h) * (s * (2 * h - 3 * s)) + 3 * Δ * (2 * s - h) ^ 2 := by
        simp only [Tpoly]; ring
      rw [e]
      have h1 : 0 ≤ (3 * Δ - d0 * h) * ((h - s) * (3 * s - h)) := by
        apply mul_nonneg (by linarith)
        apply mul_nonneg <;> linarith
      have h2 : 0 ≤ (3 * Δ - d1 * h) * (s * (2 * h - 3 * s)) := by
        apply mul_nonneg (by linarith)
        apply mul_nonneg hs0; linarith
      nlinarith [sq_nonneg (2 * s - h)]
    · have e : Tpoly h Δ d0 d1 s =
          h * d1 * (s * (3 * s - 2 * h)) + (3 * Δ - d0 * h) * ((h - s) * (3 * s - h))
            + 3 * Δ * (h - s) ^ 2 := by simp only [Tpoly]; ring
      rw [e]
      have h1 : 0 ≤ h * d1 * (s * (3 * s - 2 * h)) := by
        apply mul_nonneg (mul_nonneg hh.le hd10)
        apply mul_nonneg hs0; linarith
      have h2 : 0 ≤ (3 * Δ - d0 * h) * ((h - s) * (3 * s - h)) := by
        apply mul_nonneg (by linarith)
        apply mul_nonneg <;> linarith
      nlinarith [sq_nonneg (h - s)]

theorem Tpoly_pos_interior (h Δ d0 d1 s : ℚ) (hh : 0 < h) (hΔ : 0 < Δ)
    (hs0 : 0 < s) (hsh : s < h) (hmid : 2 * s ≠ h)
    (hd00 : 0 ≤ d0) (hd03 : d0 * h ≤ 3 * Δ) (hd10 : 0 ≤ d1) (hd13 : d1 * h ≤ 3 * Δ) :
    0 < Tpoly h Δ d0 d1 s := by
  rcases le_total (3 * s) h with hr | hr
  · have e : Tpoly h Δ d0 d1 s =
        h * d0 * ((h - s) * (h - 3 * s)) + (3 * Δ - d1 * h) * (s * (2 * h - 3 * s))
          + 3 * Δ * s ^ 2 := by simp only [Tpoly]; ring
    rw [e]
    have h1 : 0 ≤ h * d0 * ((h - s) * (h - 3 * s)) := by
      apply mul_nonneg (mul_nonneg hh.le hd00)
      apply mul_nonneg <;> linarith
    have h2 : 0 ≤ (3 * Δ - d1 * h) * (s * (2 * h - 3 * s)) := by
      apply mul_nonneg (by linarith)
      apply mul_nonneg hs0.le; linarith
    have h3 : 0 < 3 * Δ * s ^ 2 := mul_pos (by linarith) (pow_pos hs0 2)
    linarith
  · rcases le_total (3 * s) (2 * h) with hr2 | hr2
    · have e : Tpoly h Δ d0 d1 s =
          (3 * Δ - d0 * h) * ((h - s) * (3 * s - h))
            + (3 * Δ - d1 * h) * (s * (2 * h - 3 * s)) + 3 * Δ * (2 * s - h) ^ 2 := by
        simp only [Tpoly]; ring
      rw [e]
      have h1 : 0 ≤ (3 * Δ - d0 * h) * ((h - s) * (3 * s - h)) := by
        apply mul_nonneg (by linarith)
        apply mul_nonneg <;> linarith
      have h2 : 0 ≤ (3 * Δ - d1 * h) * (s * (2 * h - 3 * s)) := by
        apply mul_nonneg (by linarith)
        apply mul_nonneg hs0.le; linarith
      have h3 : 0 < 3 * Δ * (2 * s - h) ^ 2 := by
        apply mul_pos (by linarith)
        have : 2 * s - h ≠ 0 := fun hc => hmid (by linarith)
        positivity
      linarith
    · have e : Tpoly h Δ d0 d1 s =
          h * d1 * (s * (3 * s - 2 * h)) + (3 * Δ - d0 * h) * ((h - s) * (3 * s - h))
            + 3 * Δ * (h - s) ^ 2 := by simp only [Tpoly]; ring
      rw [e]
      have h1 : 0 ≤ h * d1 * (s * (3 * s - 2 * h)) := by
        apply mul_nonneg (mul_nonneg hh.le hd10)
        apply mul_nonneg hs0.le; linarith
      have h2 : 0 ≤ (3 * Δ - d0 * h) * ((h - s) * (3 * s - h)) := by
        apply mul_nonneg (by linarith)
        apply mul_nonneg <;> linarith
      have h3 : 0 < 3 * Δ * (h - s) ^ 2 := by
        apply mul_pos (by linarith)
        have : h - s ≠ 0 := fun hc => absurd (by linarith : h = s) (by linarith)
        positivity
      linarith

theorem Tpoly_sum_pos (h Δ d0 d1 s1 s2 : ℚ) (hh : 0 < h) (hΔ : 0 < Δ)
    (hs0 : 0 ≤ s1) (h12 : s1 < s2) (hsh : s2 ≤ h)
    (hd00 : 0 ≤ d0) (hd03 : d0 * h ≤ 3 * Δ) (hd10 : 0 ≤ d1) (hd13 : d1 * h ≤ 3 * Δ) :
    0 < Tpoly h Δ d0 d1 s1 + 4 * Tpoly h Δ d0 d1 ((s1 + s2) / 2)
      + Tpoly h Δ d0 d1 s2 := by
  have hT1 := Tpoly_nonneg h Δ d0 d1 s1 hh hs0 (by linarith) hd00 hd03 hd10 hd13
  have hT2 := Tpoly_nonneg h Δ d0 d1 s2 hh (by linarith) hsh hd00 hd03 hd10 hd13
  have hTm := Tpoly_nonneg h Δ d0 d1 ((s1 + s2) / 2) hh (by linarith) (by linarith)
    hd00 hd03 hd10 hd13
  by_cases hmid : 2 * ((s1 + s2) / 2) = h
  · by_cases hd : d0 * h + d1 * h < 6 * Δ
    · have hh2 : h = s1 + s2 := by linarith
      subst hh2
      have e : Tpoly (s1 + s2) Δ d0 d1 ((s1 + s2) / 2) =
          ((s1 + s2) / 2) ^ 2 * (6 * Δ - (d0 * (s1 + s2) + d1 * (s1 + s2))) := by
        simp only [Tpoly]; ring
      have hpos : 0 < Tpoly (s1 + s2) Δ d0 d1 ((s1 + s2) / 2) := by
        rw [e]
        apply mul_pos _ (by linarith)
        have : 0 < (s1 + s2) / 2 := by linarith
        positivity
      linarith
    · have hne : h ≠ 0 := ne_of_gt hh
      have hd0 : d0 = 3 * Δ / h := by
        field_simp
        linarith
      have hd1 : d1 = 3 * Δ / h := by
        field_simp
        linarith
      subst hd0 hd1
      have e : Tpoly h Δ (3 * Δ / h) (3 * Δ / h) s1 = 3 * Δ * (2 * s1 - h) ^ 2 := by
        simp only [Tpoly]; field_simp; ring
      have hlt : 2 * s1 - h ≠ 0 := by
        intro hc
        have : 2 * s1 = h := by linarith
        linarith
      have hpos : 0 < Tpoly h Δ (3 * Δ / h) (3 * Δ / h) s1 := by
        rw [e]
        apply mul_pos (by linarith)
        positivity
      linarith
  · have hpos := Tpoly_pos_interior h Δ d0 d1 ((s1 + s2) / 2) hh hΔ
      (by linarith) (by linarith) hmid hd00 hd03 hd10 hd13
    linarith

theorem hermite_sub (t0 y0 d0 t1 y1 d1 x1 x2 : ℚ) :
    hermite t0 y0 d0 t1 y1 d1 x2 - hermite t0 y0 d0 t1 y1 d1 x1 =
      ((x2 - x1) / 6) *
        (hermQ t0 y0 d0 t1 y1 d1 x1 + 4 * hermQ t0 y0 d0 t1 y1 d1 ((x1 + x2) / 2)
          + hermQ t0 y0 d0 t1 y1 d1 x2) := by
  simp only [hermite, hermQ]
  ring

theorem hermQ_eq_T (t0 y0 d0 t1 y1 d1 x : ℚ) (h : t0 ≠ t1) :
    hermQ t0 y0 d0 t1 y1 d1 x =
      Tpoly (t1 - t0) (y1 - y0) d0 d1 (x - t0) / (t1 - t0) ^ 3 := by
  have hne : t1 - t0 ≠ 0 := sub_ne_zero.2 (Ne.symm h)
  simp only [hermQ, Tpoly]
  field_simp
  ring

theorem hermite_left (t0 y0 d0 t1 y1 d1 : ℚ) :
    hermite t0 y0 d0 t1 y1 d1 t0 = y0 := by
  simp only [hermite]
  ring

theorem hermite_right (t0 y0 d0 t1 y1 d1 : ℚ) (h : t0 ≠ t1) :
    hermite t0 y0 d0 t1 y1 d1 t1 = y1 := by
  have hne : t1 - t0 ≠ 0 := sub_ne_zero.2 (Ne.symm h)
  simp only [hermite]
  field_simp
  ring

theorem hermQ_nonneg (t0 y0 d0 t1 y1 d1 x : ℚ) (ht : t0 < t1)
    (hd00 : 0 ≤ d0) (hd03 : d0 * (t1 - t0) ≤ 3 * (y1 - y0))
    (hd10 : 0 ≤ d1) (hd13 : d1 * (t1 - t0) ≤ 3 * (y1 - y0))
    (hxa : t0 ≤ x) (hxb : x ≤ t1) :
    0 ≤ hermQ t0 y0 d0 t1 y1 d1 x := by
  rw [hermQ_eq_T t0 y0 d0 t1 y1 d1 x (ne_of_lt ht)]
  have hh : (0:ℚ) < t1 - t0 := by linarith
  apply div_nonneg _ (by positivity)
  exact Tpoly_nonneg (t1 - t0) (y1 - y0) d0 d1 (x - t0) hh (by linarith) (by linarith)
    hd00 hd03 hd10 hd13

theorem hermite_mono (t0 y0 d0 t1 y1 d1 : ℚ) (ht : t0 < t1)
    (hd00 : 0 ≤ d0) (hd03 : d0 * (t1 - t0) ≤ 3 * (y1 - y0))
    (hd10 : 0 ≤ d1) (hd13 : d1 * (t1 - t0) ≤ 3 * (y1 - y0))
    (x1 x2 : ℚ) (hx0 : t0 ≤ x1) (hx : x1 ≤ x2) (hx1 : x2 ≤ t1) :
    hermite t0 y0 d0 t1 y1 d1 x1 ≤ hermite t0 y0 d0 t1 y1 d1 x2 := by
  have h1 := hermQ_nonneg t0 y0 d0 t1 y1 d1 x1 ht hd00 hd03 hd10 hd13 hx0 (by linarith)
  have h2 := hermQ_nonneg t0 y0 d0 t1 y1 d1 x2 ht hd00 hd03 hd10 hd13 (by linarith) hx1
  have hm := hermQ_nonneg t0 y0 d0 t1 y1 d1 ((x1 + x2) / 2) ht hd00 hd03 hd10 hd13
    (by linarith) (by linarith)
  have hsub := hermite_sub t0 y0 d0 t1 y1 d1 x1 x2
  have : 0 ≤ hermite t0 y0 d0 t1 y1 d1 x2 - hermite t0 y0 d0 t1 y1 d1 x1 := by
    rw [hsub]
    apply mul_nonneg (by linarith)
    linarith
  linarith

theorem hermite_strictMono (t0 y0 d0 t1 y1 d1 : ℚ) (ht : t0 < t1) (hy : y0 < y1)
    (hd00 : 0 ≤ d0) (hd03 : d0 * (t1 - t0) ≤ 3 * (y1 - y0))
    (hd10 : 0 ≤ d1) (hd13 : d1 * (t1 - t0) ≤ 3 * (y1 - y0))
    (x1 x2 : ℚ) (hx0 : t0 ≤ x1) (hx : x1 < x2) (hx1 : x2 ≤ t1) :
    hermite t0 y0 d0 t1 y1 d1 x1 < hermite t0 y0 d0 t1 y1 d1 x2 := by
  have hh : (0:ℚ) < t1 - t0 := by linarith
  have hsum := Tpoly_sum_pos (t1 - t0) (y1 - y0) d0 d1 (x1 - t0) (x2 - t0) hh
    (by linarith) (by linarith) (by linarith) (by linarith) hd00 hd03 hd10 hd13
  have hsub := hermite_sub t0 y0 d0 t1 y1 d1 x1 x2
  have hq1 := hermQ_eq_T t0 y0 d0 t1 y1 d1 x1 (ne_of_lt ht)
  have hq2 := hermQ_eq_T t0 y0 d0 t1 y1 d1 x2 (ne_of_lt ht)
  have hqm := hermQ_eq_T t0 y0 d0 t1 y1 d1 ((x1 + x2) / 2) (ne_of_lt ht)
  have hmid : ((x1 + x2) / 2 - t0) = ((x1 - t0) + (x2 - t0)) / 2 := by ring
  rw [hmid] at hqm
  have hS : 0 < hermQ t0 y0 d0 t1 y1 d1 x1
      + 4 * hermQ t0 y0 d0 t1 y1 d1 ((x1 + x2) / 2) + hermQ t0 y0 d0 t1 y1 d1 x2 := by
    rw [hq1, hq2, hqm]
    have e : Tpoly (t1 - t0) (y1 - y0) d0 d1 (x1 - t0) / (t1 - t0) ^ 3
        + 4 * (Tpoly (t1 - t0) (y1 - y0) d0 d1 ((x1 - t0 + (x2 - t0)) / 2) / (t1 - t0) ^ 3)
        + Tpoly (t1 - t0) (y1 - y0) d0 d1 (x2 - t0) / (t1 - t0) ^ 3 =
        (Tpoly (t1 - t0) (y1 - y0) d0 d1 (x1 - t0)
          + 4 * Tpoly (t1 - t0) (y1 - y0) d0 d1 ((x1 - t0 + (x2 - t0)) / 2)
          + Tpoly (t1 - t0) (y1 - y0) d0 d1 (x2 - t0)) / (t1 - t0) ^ 3 := by ring
    rw [e]
    exact div_pos hsum (by positivity)
  have : 0 < hermite t0 y0 d0 t1 y1 d1 x2 - hermite t0 y0 d0 t1 y1 d1 x1 := by
    rw [hsub]
    apply mul_pos (by linarith) hS
  linarith

theorem qsign_eq_zero_iff (x : ℚ) : qsign x = 0 ↔ x = 0 := by
  unfold qsign
  split_ifs with h1 h2
  · constructor <;> intro hc <;> [exact absurd hc one_ne_zero; linarith]
  · constructor <;> intro hc
    · norm_num at hc
    · linarith
  · constructor <;> intro hc <;> [linarith; rfl]

theorem qsign_pos (x : ℚ) (h : 0 < x) : qsign x = 1 := by
  unfold qsign
  rw [if_pos h]

theorem qsign_eq_one_imp (x : ℚ) (h : qsign x = 1) : 0 < x := by
  unfold qsign at h
  split_ifs at h with h1 h2
  · exact h1
  · norm_num at h
  · norm_num at h

theorem edgeCase_bounds (h0 h1 m0 m1 : ℚ) (hh0 : 0 < h0) (hh1 : 0 < h1)
    (hm0 : 0 ≤ m0) :
    0 ≤ edgeCase h0 h1 m0 m1 ∧ edgeCase h0 h1 m0 m1 ≤ 3 * m0 := by
  simp only [edgeCase]
  split_ifs with hc1 hc2
  · exact ⟨le_refl 0, by linarith⟩
  · exact ⟨by linarith, le_refl _⟩
  · push_neg at hc1
    rcases eq_or_lt_of_le hm0 with hz | hpos
    · have : qsign m0 = 0 := (qsign_eq_zero_iff m0).2 hz.symm
      rw [this] at hc1
      have hd0 : ((2 * h0 + h1) * m0 - h0 * m1) / (h0 + h1) = 0 :=
        (qsign_eq_zero_iff _).1 hc1
      rw [hd0]
      exact ⟨le_refl 0, by linarith⟩
    · have hs0 : qsign m0 = 1 := qsign_pos m0 hpos
      rw [hs0] at hc1
      have hdpos : 0 < ((2 * h0 + h1) * m0 - h0 * m1) / (h0 + h1) :=
        qsign_eq_one_imp _ hc1
      refine ⟨hdpos.le, ?_⟩
      rcases Classical.em (qsign m0 = qsign m1) with hsame | hdiff
      · have hm1pos : 0 < m1 := qsign_eq_one_imp m1 (by rw [← hsame, hs0])
        rw [div_le_iff₀ (by linarith : (0:ℚ) < h0 + h1)]
        nlinarith
      · have habs : ¬ 3 * |m0| < |((2 * h0 + h1) * m0 - h0 * m1) / (h0 + h1)| :=
          fun hlt => hc2 ⟨hdiff, hlt⟩
        push_neg at habs
        calc ((2 * h0 + h1) * m0 - h0 * m1) / (h0 + h1)
            ≤ |((2 * h0 + h1) * m0 - h0 * m1) / (h0 + h1)| := le_abs_self _
          _ ≤ 3 * |m0| := habs
          _ = 3 * m0 := by rw [abs_of_nonneg hm0]

theorem interD1_bounds (h0 h1 m0 m1 : ℚ) (hh0 : 0 < h0) (hh1 : 0 < h1)
    (hm0 : 0 ≤ m0) (hm1 : 0 ≤ m1) :
    0 ≤ interD1 (h0, m0) (h1, m1) ∧ interD1 (h0, m0) (h1, m1) ≤ 3 * m0 ∧
      interD1 (h0, m0) (h1, m1) ≤ 3 * m1 := by
  simp only [interD1]
  split_ifs with hc
  · exact ⟨le_refl 0, by linarith, by linarith⟩
  · have hprod : 0 < m0 * m1 := not_le.1 hc
    have hm0p : 0 < m0 := by nlinarith
    have hm1p : 0 < m1 := by nlinarith
    have hw1 : (0:ℚ) < 2 * h1 + h0 := by linarith
    have hw2 : (0:ℚ) < h1 + 2 * h0 := by linarith
    have hD : (0:ℚ) < (2 * h1 + h0) / m0 + (h1 + 2 * h0) / m1 := by positivity
    have hde : (2 * h1 + h0) / m0 + (h1 + 2 * h0) / m1 =
        ((2 * h1 + h0) * m1 + (h1 + 2 * h0) * m0) / (m0 * m1) := by
      field_simp
    have hDen : (0:ℚ) < (2 * h1 + h0) * m1 + (h1 + 2 * h0) * m0 := by positivity
    refine ⟨le_of_lt (div_pos (by linarith) hD), ?_, ?_⟩
    · rw [hde, div_div_eq_mul_div, div_le_iff₀ hDen]
      nlinarith [mul_nonneg (mul_nonneg hm0 hm1) (by linarith :
        (0:ℚ) ≤ 2 * (2 * h1 + h0) - (h1 + 2 * h0)),
        mul_nonneg (mul_nonneg hm0 hm0) hw2.le]
    · rw [hde, div_div_eq_mul_div, div_le_iff₀ hDen]
      nlinarith [mul_nonneg (mul_nonneg hm0 hm1) (by linarith :
        (0:ℚ) ≤ 2 * (h1 + 2 * h0) - (2 * h1 + h0)),
        mul_nonneg (mul_nonneg hm1 hm1) hw1.le]

theorem le_three_slope (h Δ d : ℚ) (hh : 0 < h) (hle : d ≤ 3 * (Δ / h)) :
    d * h ≤ 3 * Δ := by
  have h2 : d ≤ 3 * Δ / h := by rw [← mul_div_assoc] at hle; exact hle
  exact (le_div_iff₀ hh).1 h2

theorem segOK_derivsFrom : ∀ (rest : List (ℚ × ℚ)) (t0 y0 t1 y1 d0 : ℚ),
    List.Chain' (· < ·) (((t0, y0) :: (t1, y1) :: rest).map Prod.fst) →
    List.Chain' (· ≤ ·) (((t0, y0) :: (t1, y1) :: rest).map Prod.snd) →
    rest ≠ [] →
    0 ≤ d0 → d0 * (t1 - t0) ≤ 3 * (y1 - y0) →
    SegOK ((t0, y0) :: (t1, y1) :: rest)
      (d0 :: derivsFrom (hms ((t0, y0) :: (t1, y1) :: rest)))
  | [], _, _, _, _, _, _, _, hne, _, _ => absurd rfl hne
  | [(t2, y2)], t0, y0, t1, y1, d0, ht, hy, _, hd00, hd03 => by
    simp only [List.map, List.chain'_cons, List.chain'_singleton, and_true] at ht hy
    obtain ⟨ht01, ht12⟩ := ht
    obtain ⟨hy01, hy12⟩ := hy
    have hh0 : (0:ℚ) < t1 - t0 := by linarith
    have hh1 : (0:ℚ) < t2 - t1 := by linarith
    have hm0 : (0:ℚ) ≤ (y1 - y0) / (t1 - t0) := div_nonneg (by linarith) hh0.le
    have hm1 : (0:ℚ) ≤ (y2 - y1) / (t2 - t1) := div_nonneg (by linarith) hh1.le
    have hI := interD1_bounds (t1 - t0) (t2 - t1) ((y1 - y0) / (t1 - t0))
      ((y2 - y1) / (t2 - t1)) hh0 hh1 hm0 hm1
    have hE := edgeCase_bounds (t2 - t1) (t1 - t0) ((y2 - y1) / (t2 - t1))
      ((y1 - y0) / (t1 - t0)) hh1 hh0 hm1
    simp only [hms, derivsFrom]
    exact SegOK.cons ht01 hy01 hd00 hd03 hI.1
      (le_three_slope _ _ _ hh0 hI.2.1)
      (SegOK.two ht12 hy12 hI.1 (le_three_slope _ _ _ hh1 hI.2.2)
        hE.1 (le_three_slope _ _ _ hh1 hE.2))
  | (t2, y2) :: (t3, y3) :: rest3, t0, y0, t1, y1, d0, ht, hy, _, hd00, hd03 => by
    have ht' : List.Chain' (· < ·)
        (((t1, y1) :: (t2, y2) :: (t3, y3) :: rest3).map Prod.fst) := by
      simp only [List.map, List.chain'_cons] at ht ⊢
      exact ⟨ht.2.1, ht.2.2⟩
    have hy' : List.Chain' (· ≤ ·)
        (((t1, y1) :: (t2, y2) :: (t3, y3) :: rest3).map Prod.snd) := by
      simp only [List.map, List.chain'_cons] at hy ⊢
      exact ⟨hy.2.1, hy.2.2⟩
    have ht01 : t0 < t1 := by
      simp only [List.map, List.chain'_cons] at ht
      exact ht.1
    have ht12 : t1 < t2 := by
      simp only [List.map, List.chain'_cons] at ht
      exact ht.2.1
    have hy01 : y0 ≤ y1 := by
      simp only [List.map, List.chain'_cons] at hy
      exact hy.1
    have hy12 : y1 ≤ y2 := by
      simp only [List.map, List.chain'_cons] at hy
      exact hy.2.1
    have hh0 : (0:ℚ) < t1 - t0 := by linarith
    have hh1 : (0:ℚ) < t2 - t1 := by linarith
    have hm0 : (0:ℚ) ≤ (y1 - y0) / (t1 - t0) := div_nonneg (by linarith) hh0.le
    have hm1 : (0:ℚ) ≤ (y2 - y1) / (t2 - t1) := div_nonneg (by linarith) hh1.le
    have hI := interD1_bounds (t1 - t0) (t2 - t1) ((y1 - y0) / (t1 - t0))
      ((y2 - y1) / (t2 - t1)) hh0 hh1 hm0 hm1
    have hIH := segOK_derivsFrom ((t3, y3) :: rest3) t1 y1 t2 y2
      (interD1 (t1 - t0, (y1 - y0) / (t1 - t0)) (t2 - t1, (y2 - y1) / (t2 - t1)))
      ht' hy' (by simp) hI.1 (le_three_slope _ _ _ hh1 hI.2.2)
    simp only [hms, derivsFrom] at hIH ⊢
    exact SegOK.cons ht01 hy01 hd00 hd03 hI.1
      (le_three_slope _ _ _ hh0 hI.2.1) hIH

theorem segOK_pchipDerivs (pts : List (ℚ × ℚ)) (h2 : 2 ≤ pts.length)
    (ht : List.Chain' (· < ·) (pts.map Prod.fst))
    (hy : List.Chain' (· ≤ ·) (pts.map Prod.snd)) :
    SegOK pts (pchipDerivs pts) := by
  match pts with
  | [] => simp at h2
  | [_] => simp at h2
  | [(t0, y0), (t1, y1)] =>
    simp only [List.map, List.chain'_cons, List.chain'_singleton, and_true] at ht hy
    have hh : (0:ℚ) < t1 - t0 := by linarith
    have hm : (0:ℚ) ≤ (y1 - y0) / (t1 - t0) := div_nonneg (by linarith) hh.le
    have hb : (y1 - y0) / (t1 - t0) * (t1 - t0) ≤ 3 * (y1 - y0) := by
      rw [div_mul_cancel₀ _ (ne_of_gt hh)]
      linarith
    simp only [pchipDerivs, hms]
    exact SegOK.two ht hy hm hb hm hb
  | (t0, y0) :: (t1, y1) :: (t2, y2) :: rest =>
    have ht01 : t0 < t1 := by
      simp only [List.map, List.chain'_cons] at ht
      exact ht.1
    have ht12 : t1 < t2 := by
      simp only [List.map, List.chain'_cons] at ht
      exact ht.2.1
    have hy01 : y0 ≤ y1 := by
      simp only [List.map, List.chain'_cons] at hy
      exact hy.1
    have hy12 : y1 ≤ y2 := by
      simp only [List.map, List.chain'_cons] at hy
      exact hy.2.1
    have hh0 : (0:ℚ) < t1 - t0 := by linarith
    have hh1 : (0:ℚ) < t2 - t1 := by linarith
    have hm0 : (0:ℚ) ≤ (y1 - y0) / (t1 - t0) := div_nonneg (by linarith) hh0.le
    have hE := edgeCase_bounds (t1 - t0) (t2 - t1) ((y1 - y0) / (t1 - t0))
      ((y2 - y1) / (t2 - t1)) hh0 hh1 hm0
    have hmain := segOK_derivsFrom ((t2, y2) :: rest) t0 y0 t1 y1
      (edgeCase (t1 - t0) (t2 - t1) ((y1 - y0) / (t1 - t0)) ((y2 - y1) / (t2 - t1)))
      ht hy (by simp) hE.1 (le_three_slope _ _ _ hh0 hE.2)
    simp only [pchipDerivs, hms, derivsFrom] at hmain ⊢
    exact hmain

theorem segOK_eval_head (pts : List (ℚ × ℚ)) (ds : List ℚ) (t y : ℚ)
    (h : SegOK ((t, y) :: pts) ds) : evalSeg ((t, y) :: pts) ds t = y := by
  cases h with
  | two ht _ _ _ _ _ =>
    simp only [evalSeg, if_pos ht.le]
    exact hermite_left _ _ _ _ _ _
  | cons ht _ _ _ _ _ _ =>
    simp only [evalSeg, if_pos ht.le]
    exact hermite_left _ _ _ _ _ _

theorem segOK_head_lt_last (pts : List (ℚ × ℚ)) (ds : List ℚ)
    (h : SegOK pts ds) : headT pts < lastT pts := by
  induction h with
  | two ht _ _ _ _ _ => simpa [headT, lastT] using ht
  | cons ht _ _ _ _ _ _ ih =>
    simp only [headT, lastT] at ih ⊢
    linarith

theorem evalSeg_mono (pts : List (ℚ × ℚ)) (ds : List ℚ) (h : SegOK pts ds) :
    ∀ x1 x2, headT pts ≤ x1 → x1 ≤ x2 → x2 ≤ lastT pts →
      evalSeg pts ds x1 ≤ evalSeg pts ds x2 := by
  induction h with
  | @two t0 y0 t1 y1 d0 d1 ht hy hd00 hd03 hd10 hd13 =>
    intro x1 x2 ha hb hc
    simp only [headT, lastT] at ha hc
    simp only [evalSeg, if_pos (le_trans hb hc), if_pos hc]
    exact hermite_mono t0 y0 d0 t1 y1 d1 ht hd00 hd03 hd10 hd13 x1 x2 ha hb hc
  | @cons t0 y0 t1 y1 d0 d1 ps ds ht hy hd00 hd03 hd10 hd13 htl ih =>
    intro x1 x2 ha hb hc
    simp only [headT] at ha
    simp only [lastT] at hc
    have hlast : t1 < lastT ((t1, y1) :: ps) := by
      have := segOK_head_lt_last _ _ htl
      simpa [headT] using this
    by_cases hx2 : x2 ≤ t1
    · simp only [evalSeg, if_pos (le_trans hb hx2), if_pos hx2]
      exact hermite_mono t0 y0 d0 t1 y1 d1 ht hd00 hd03 hd10 hd13 x1 x2 ha hb hx2
    · push_neg at hx2
      rw [show evalSeg ((t0, y0) :: (t1, y1) :: ps) (d0 :: d1 :: ds) x2 =
        evalSeg ((t1, y1) :: ps) (d1 :: ds) x2 from by
          simp only [evalSeg, if_neg (not_le.2 hx2)]]
      by_cases hx1 : x1 ≤ t1
      · rw [show evalSeg ((t0, y0) :: (t1, y1) :: ps) (d0 :: d1 :: ds) x1 =
          hermite t0 y0 d0 t1 y1 d1 x1 from by
            simp only [evalSeg, if_pos hx1]]
        calc hermite t0 y0 d0 t1 y1 d1 x1
            ≤ hermite t0 y0 d0 t1 y1 d1 t1 :=
              hermite_mono t0 y0 d0 t1 y1 d1 ht hd00 hd03 hd10 hd13 x1 t1 ha hx1
                (le_refl t1)
          _ = y1 := hermite_right t0 y0 d0 t1 y1 d1 (ne_of_lt ht)
          _ = evalSeg ((t1, y1) :: ps) (d1 :: ds) t1 :=
              (segOK_eval_head ps (d1 :: ds) t1 y1 htl).symm
          _ ≤ evalSeg ((t1, y1) :: ps) (d1 :: ds) x2 :=
              ih t1 x2 (by simp [headT]) hx2.le hc
      · push_neg at hx1
        rw [show evalSeg ((t0, y0) :: (t1, y1) :: ps) (d0 :: d1 :: ds) x1 =
          evalSeg ((t1, y1) :: ps) (d1 :: ds) x1 from by
            simp only [evalSeg, if_neg (not_le.2 hx1)]]
        exact ih x1 x2 (by simp [headT]; linarith) hb hc

theorem evalSeg_strictMono (pts : List (ℚ × ℚ)) (ds : List ℚ) (h : SegOK pts ds) :
    List.Chain' (· < ·) (pts.map Prod.snd) →
    ∀ x1 x2, headT pts ≤ x1 → x1 < x2 → x2 ≤ lastT pts →
      evalSeg pts ds x1 < evalSeg pts ds x2 := by
  induction h with
  | @two t0 y0 t1 y1 d0 d1 ht hy hd00 hd03 hd10 hd13 =>
    intro hsy x1 x2 ha hb hc
    simp only [List.map, List.chain'_cons, List.chain'_singleton, and_true] at hsy
    simp only [headT, lastT] at ha hc
    simp only [evalSeg, if_pos (le_trans hb.le hc), if_pos hc]
    exact hermite_strictMono t0 y0 d0 t1 y1 d1 ht hsy hd00 hd03 hd10 hd13 x1 x2 ha hb hc
  | @cons t0 y0 t1 y1 d0 d1 ps ds ht hy hd00 hd03 hd10 hd13 htl ih =>
    intro hsy x1 x2 ha hb hc
    simp only [List.map, List.chain'_cons] at hsy
    have hy01 : y0 < y1 := hsy.1
    have hsy' : List.Chain' (· < ·) (((t1, y1) :: ps).map Prod.snd) := by
      simp only [List.map, List.chain'_cons]
      exact hsy.2
    simp only [headT] at ha
    simp only [lastT] at hc
    by_cases hx2 : x2 ≤ t1
    · simp only [evalSeg, if_pos (le_trans hb.le hx2), if_pos hx2]
      exact hermite_strictMono t0 y0 d0 t1 y1 d1 ht hy01 hd00 hd03 hd10 hd13 x1 x2
        ha hb hx2
    · push_neg at hx2
      rw [show evalSeg ((t0, y0) :: (t1, y1) :: ps) (d0 :: d1 :: ds) x2 =
        evalSeg ((t1, y1) :: ps) (d1 :: ds) x2 from by
          simp only [evalSeg, if_neg (not_le.2 hx2)]]
      by_cases hx1 : x1 ≤ t1
      · rw [show evalSeg ((t0, y0) :: (t1, y1) :: ps) (d0 :: d1 :: ds) x1 =
          hermite t0 y0 d0 t1 y1 d1 x1 from by
            simp only [evalSeg, if_pos hx1]]
        calc hermite t0 y0 d0 t1 y1 d1 x1
            ≤ hermite t0 y0 d0 t1 y1 d1 t1 :=
              hermite_mono t0 y0 d0 t1 y1 d1 ht hd00 hd03 hd10 hd13 x1 t1 ha hx1
                (le_refl t1)
          _ = y1 := hermite_right t0 y0 d0 t1 y1 d1 (ne_of_lt ht)
          _ = evalSeg ((t1, y1) :: ps) (d1 :: ds) t1 :=
              (segOK_eval_head ps (d1 :: ds) t1 y1 htl).symm
          _ < evalSeg ((t1, y1) :: ps) (d1 :: ds) x2 :=
              ih hsy' t1 x2 (by simp [headT]) hx2 hc
      · push_neg at hx1
        rw [show evalSeg ((t0, y0) :: (t1, y1) :: ps) (d0 :: d1 :: ds) x1 =
          evalSeg ((t1, y1) :: ps) (d1 :: ds) x1 from by
            simp only [evalSeg, if_neg (not_le.2 hx1)]]
        exact ih hsy' x1 x2 (by simp [headT]; linarith) hb hc

theorem evalSeg_knot : ∀ (pts : List (ℚ × ℚ)) (ds : List ℚ), 2 ≤ pts.length →
    ds.length = pts.length → List.Chain' (· < ·) (pts.map Prod.fst) →
    ∀ t y, (t, y) ∈ pts → t ≤ lastT pts → evalSeg pts ds t = y
  | [], _, h2, _, _, _, _, _, _ => by simp at h2
  | [_], _, h2, _, _, _, _, _, _ => by simp at h2
  | _ :: _ :: _, [], _, hlen, _, _, _, _, _ => by simp at hlen
  | _ :: _ :: _, [_], _, hlen, _, _, _, _, _ => by simp at hlen
  | (t0, y0) :: (t1, y1) :: rest, d0 :: d1 :: ds2, _, hlen, ht, t, y, hmem, hle => by
    have ht01 : t0 < t1 := by
      simp only [List.map, List.chain'_cons] at ht
      exact ht.1
    rcases List.mem_cons.1 hmem with h0 | hmem1
    · obtain ⟨rfl, rfl⟩ := Prod.mk.injEq .. ▸ h0
      simp only [evalSeg, if_pos ht01.le]
      exact hermite_left _ _ _ _ _ _
    · rcases List.mem_cons.1 hmem1 with h1 | hmem2
      · obtain ⟨rfl, rfl⟩ := Prod.mk.injEq .. ▸ h1
        simp only [evalSeg, if_pos (le_refl _)]
        exact hermite_right _ _ _ _ _ _ (ne_of_lt ht01)
      · have hp : List.Pairwise (· < ·)
            (((t0, y0) :: (t1, y1) :: rest).map Prod.fst) :=
          List.chain'_iff_pairwise.1 ht
        simp only [List.map, List.pairwise_cons] at hp
        have ht1t : t1 < t := by
          have := hp.2.1 t (List.mem_map.2 ⟨(t, y), hmem2, rfl⟩)
          exact this
        have hrest : rest ≠ [] := List.ne_nil_of_mem hmem2
        have hlen2 : 2 ≤ ((t1, y1) :: rest).length := by
          cases rest with
          | nil => exact absurd rfl hrest
          | cons a l => simp
        have htail : List.Chain' (· < ·) (((t1, y1) :: rest).map Prod.fst) := by
          simp only [List.map, List.chain'_cons] at ht ⊢
          exact ht.2
        have hlast : t ≤ lastT ((t1, y1) :: rest) := by
          cases rest with
          | nil => exact absurd rfl hrest
          | cons a l => simpa [lastT] using hle
        rw [show evalSeg ((t0, y0) :: (t1, y1) :: rest) (d0 :: d1 :: ds2) t =
          evalSeg ((t1, y1) :: rest) (d1 :: ds2) t from by
            simp only [evalSeg, if_neg (not_le.2 ht1t)]]
        exact evalSeg_knot ((t1, y1) :: rest) (d1 :: ds2) hlen2
          (by simpa using hlen) htail t y (List.mem_cons.2 (Or.inr hmem2)) hlast

theorem qsign_neg (x : ℚ) : qsign (-x) = - qsign x := by
  unfold qsign
  rcases lt_trichotomy x 0 with h | h | h
  · rw [if_pos (by linarith : (0:ℚ) < -x), if_neg (by linarith : ¬ (0:ℚ) < x),
      if_pos h]
    try norm_num
  · subst h
    norm_num
  · rw [if_neg (by linarith : ¬ (0:ℚ) < -x), if_pos (by linarith : -x < 0),
      if_pos h]
    try norm_num

theorem neg_ne_iff_qs (a b : ℚ) : (-a ≠ -b) ↔ (a ≠ b) := by
  constructor
  · intro h hc; exact h (by rw [hc])
  · intro h hc; exact h (by linarith)

theorem edgeCase_neg (h0 h1 m0 m1 : ℚ) :
    edgeCase h0 h1 (-m0) (-m1) = - edgeCase h0 h1 m0 m1 := by
  simp only [edgeCase]
  have hde : ((2 * h0 + h1) * -m0 - h0 * -m1) / (h0 + h1) =
      -(((2 * h0 + h1) * m0 - h0 * m1) / (h0 + h1)) := by ring
  simp only [hde, qsign_neg, neg_ne_iff_qs, abs_neg]
  split_ifs with hc1 hc2
  · norm_num
  · ring
  · ring

theorem interD1_neg (h0 h1 m0 m1 : ℚ) :
    interD1 (h0, -m0) (h1, -m1) = - interD1 (h0, m0) (h1, m1) := by
  simp only [interD1]
  have he : -m0 * -m1 = m0 * m1 := by ring
  rw [he]
  split_ifs with hc
  · norm_num
  · have e : (2 * h1 + h0) / -m0 + (h1 + 2 * h0) / -m1 =
        -((2 * h1 + h0) / m0 + (h1 + 2 * h0) / m1) := by ring
    rw [e, div_neg]

theorem hms_neg : ∀ (pts : List (ℚ × ℚ)),
    hms (pts.map (fun p => (p.1, -p.2))) =
      (hms pts).map (fun q => (q.1, -q.2))
  | [] => by simp [hms]
  | [(t, y)] => by simp [hms]
  | (t0, y0) :: (t1, y1) :: rest => by
    have ih := hms_neg ((t1, y1) :: rest)
    simp only [List.map, hms] at ih ⊢
    rw [ih]
    have e : (-y1 - -y0) / (t1 - t0) = -((y1 - y0) / (t1 - t0)) := by ring
    rw [e]

theorem derivsFrom_neg : ∀ (l : List (ℚ × ℚ)),
    derivsFrom (l.map (fun q => (q.1, -q.2))) = (derivsFrom l).map Neg.neg
  | [] => by simp [derivsFrom]
  | [_] => by simp [derivsFrom]
  | [(h0, m0), (h1, m1)] => by
    simp only [List.map, derivsFrom]
    rw [interD1_neg, edgeCase_neg]
  | (h0, m0) :: (h1, m1) :: (h2, m2) :: rest => by
    have ih := derivsFrom_neg ((h1, m1) :: (h2, m2) :: rest)
    simp only [List.map, derivsFrom] at ih ⊢
    rw [interD1_neg, ih]

theorem pchipDerivs_neg (pts : List (ℚ × ℚ)) :
    pchipDerivs (pts.map (fun p => (p.1, -p.2))) =
      (pchipDerivs pts).map Neg.neg := by
  unfold pchipDerivs
  rw [hms_neg]
  match hh : hms pts with
  | [] => rfl
  | [(h, m)] => simp
  | (h0, m0) :: (h1, m1) :: rest =>
    have ih := derivsFrom_neg ((h0, m0) :: (h1, m1) :: rest)
    simp only [List.map] at ih ⊢
    rw [edgeCase_neg, ih]

theorem hermite_neg (t0 y0 d0 t1 y1 d1 x : ℚ) :
    hermite t0 (-y0) (-d0) t1 (-y1) (-d1) x = - hermite t0 y0 d0 t1 y1 d1 x := by
  simp only [hermite]
  ring

theorem evalSeg_neg : ∀ (pts : List (ℚ × ℚ)) (ds : List ℚ) (x : ℚ),
    evalSeg (pts.map (fun p => (p.1, -p.2))) (ds.map Neg.neg) x =
      - evalSeg pts ds x
  | (t0, y0) :: (t1, y1) :: rest, d0 :: d1 :: ds, x => by
    have ih := evalSeg_neg ((t1, y1) :: rest) (d1 :: ds) x
    simp only [List.map, evalSeg] at ih ⊢
    split_ifs with hc
    · exact hermite_neg t0 y0 d0 t1 y1 d1 x
    · exact ih
  | [], _, x => by simp [evalSeg]
  | [_], _, x => by simp [evalSeg]
  | _ :: _ :: _, [], x => by simp [evalSeg]
  | _ :: _ :: _, [_], x => by simp [evalSeg]

theorem headT_negmap (pts : List (ℚ × ℚ)) :
    headT (pts.map (fun p => (p.1, -p.2))) = headT pts := by
  cases pts with
  | nil => rfl
  | cons p rest => simp [headT]

theorem lastT_negmap : ∀ (pts : List (ℚ × ℚ)),
    lastT (pts.map (fun p => (p.1, -p.2))) = lastT pts
  | [] => rfl
  | [(t, y)] => rfl
  | p :: q :: rest => by
    have ih := lastT_negmap (q :: rest)
    simp only [List.map, lastT] at ih ⊢
    exact ih

theorem fst_negmap (pts : List (ℚ × ℚ)) :
    (pts.map (fun p => (p.1, -p.2))).map Prod.fst = pts.map Prod.fst := by
  simp [List.map_map]

theorem snd_negmap (pts : List (ℚ × ℚ)) :
    (pts.map (fun p => (p.1, -p.2))).map Prod.snd =
      (pts.map Prod.snd).map Neg.neg := by
  simp [List.map_map]

theorem evalSeg_anti (pts : List (ℚ × ℚ)) (h2 : 2 ≤ pts.length)
    (ht : List.Chain' (· < ·) (pts.map Prod.fst))
    (hy : List.Chain' (fun a b : ℚ => b ≤ a) (pts.map Prod.snd)) :
    ∀ x1 x2, headT pts ≤ x1 → x1 ≤ x2 → x2 ≤ lastT pts →
      evalSeg pts (pchipDerivs pts) x2 ≤ evalSeg pts (pchipDerivs pts) x1 := by
  intro x1 x2 ha hb hc
  have hlen : 2 ≤ (pts.map (fun p => (p.1, -p.2))).length := by
    simpa using h2
  have htN : List.Chain' (· < ·)
      ((pts.map (fun p => (p.1, -p.2))).map Prod.fst) := by
    rw [fst_negmap]; exact ht
  have hyN : List.Chain' (· ≤ ·)
      ((pts.map (fun p => (p.1, -p.2))).map Prod.snd) := by
    rw [snd_negmap, List.chain'_map]
    exact List.Chain'.imp (fun a b hab => by simpa using hab) hy
  have hseg := segOK_pchipDerivs _ hlen htN hyN
  have hmono := evalSeg_mono _ _ hseg x1 x2
    (by rwa [headT_negmap]) hb (by rwa [lastT_negmap])
  rw [pchipDerivs_neg, evalSeg_neg, evalSeg_neg] at hmono
  linarith

theorem evalSeg_strictAnti (pts : List (ℚ × ℚ)) (h2 : 2 ≤ pts.length)
    (ht : List.Chain' (· < ·) (pts.map Prod.fst))
    (hy : List.Chain' (fun a b : ℚ => b < a) (pts.map Prod.snd)) :
    ∀ x1 x2, headT pts ≤ x1 → x1 < x2 → x2 ≤ lastT pts →
      evalSeg pts (pchipDerivs pts) x2 < evalSeg pts (pchipDerivs pts) x1 := by
  intro x1 x2 ha hb hc
  have hlen : 2 ≤ (pts.map (fun p => (p.1, -p.2))).length := by
    simpa using h2
  have htN : List.Chain' (· < ·)
      ((pts.map (fun p => (p.1, -p.2))).map Prod.fst) := by
    rw [fst_negmap]; exact ht
  have hyN : List.Chain' (· ≤ ·)
      ((pts.map (fun p => (p.1, -p.2))).map Prod.snd) := by
    rw [snd_negmap, List.chain'_map]
    exact List.Chain'.imp (fun a b hab => by simpa using hab.le) hy
  have hyNs : List.Chain' (· < ·)
      ((pts.map (fun p => (p.1, -p.2))).map Prod.snd) := by
    rw [snd_negmap, List.chain'_map]
    exact List.Chain'.imp (fun a b hab => by simpa using hab) hy
  have hseg := segOK_pchipDerivs _ hlen htN hyN
  have hmono := evalSeg_strictMono _ _ hseg hyNs x1 x2
    (by rwa [headT_negmap]) hb (by rwa [lastT_negmap])
  rw [pchipDerivs_neg, evalSeg_neg, evalSeg_neg] at hmono
  linarith

theorem bisect_mem (g : ℚ → ℚ) : ∀ (n : ℕ) (a b : ℚ), a ≤ b →
    a ≤ bisect g n a b ∧ bisect g n a b ≤ b
  | 0, a, b, hab => by
    simp only [bisect]
    constructor <;> linarith
  | n + 1, a, b, hab => by
    simp only [bisect]
    split_ifs with h1 h2
    · constructor <;> linarith
    · have := bisect_mem g n a ((a + b) / 2) (by linarith)
      constructor <;> linarith [this.1, this.2]
    · have := bisect_mem g n ((a + b) / 2) b (by linarith)
      constructor <;> linarith [this.1, this.2]

theorem bisect_close (g : ℚ → ℚ) (lo hi : ℚ)
    (hmono : ∀ x y, lo ≤ x → x < y → y ≤ hi → g x < g y) (c : ℚ)
    (hc : g c = 0) : ∀ (n : ℕ) (a b : ℚ), lo ≤ a → b ≤ hi →
    g a < 0 → 0 < g b → a ≤ c → c ≤ b →
    |bisect g n a b - c| ≤ (b - a) / 2 ^ (n + 1)
  | 0, a, b, hloa, hbhi, hga, hgb, hac, hcb => by
    simp only [bisect, pow_one]
    rw [abs_le]
    constructor <;> [linarith; linarith]
  | n + 1, a, b, hloa, hbhi, hga, hgb, hac, hcb => by
    simp only [bisect]
    have hab : a ≤ b := le_trans hac hcb
    have hlom : lo ≤ (a + b) / 2 := by linarith
    have hmhi : (a + b) / 2 ≤ hi := by linarith
    have hloc : lo ≤ c := le_trans hloa hac
    have hchi : c ≤ hi := le_trans hcb hbhi
    split_ifs with h1 h2
    · have hmc : (a + b) / 2 = c := by
        rcases lt_trichotomy ((a + b) / 2) c with h | h | h
        · have := hmono _ _ hlom h hchi
          rw [hc, h1] at this
          exact absurd this (lt_irrefl 0)
        · exact h
        · have := hmono _ _ hloc h hmhi
          rw [hc, h1] at this
          exact absurd this (lt_irrefl 0)
      rw [hmc]
      simp only [sub_self, abs_zero]
      apply div_nonneg (by linarith) (by positivity)
    · have hgm : 0 < g ((a + b) / 2) := by
        rcases lt_trichotomy (g ((a + b) / 2)) 0 with h | h | h
        · nlinarith
        · exact absurd h h1
        · exact h
      have hcm : c ≤ (a + b) / 2 := by
        by_contra hcon
        push_neg at hcon
        have := hmono _ _ hlom hcon hchi
        rw [hc] at this
        linarith
      have hrec := bisect_close g lo hi hmono c hc n a ((a + b) / 2)
        hloa hmhi hga hgm hac hcm
      have he : ((a + b) / 2 - a) / 2 ^ (n + 1) = (b - a) / 2 ^ (n + 1 + 1) := by
        rw [pow_succ]
        field_simp
        ring
      rw [he] at hrec
      exact hrec
    · have hgm : g ((a + b) / 2) < 0 := by
        rcases lt_trichotomy (g ((a + b) / 2)) 0 with h | h | h
        · exact h
        · exact absurd h h1
        · exfalso
          apply h2
          exact mul_neg_of_neg_of_pos hga h
      have hcm : (a + b) / 2 ≤ c := by
        by_contra hcon
        push_neg at hcon
        have := hmono _ _ hloc hcon hmhi
        rw [hc] at this
        linarith
      have hrec := bisect_close g lo hi hmono c hc n ((a + b) / 2) b
        hlom hbhi hgm hgb hcm hcb
      have he : (b - (a + b) / 2) / 2 ^ (n + 1) = (b - a) / 2 ^ (n + 1 + 1) := by
        rw [pow_succ]
        field_simp
        ring
      rw [he] at hrec
      exact hrec

theorem brentqBisect_close (g : ℚ → ℚ) (a b c : ℚ)
    (hmono : ∀ x y, a ≤ x → x < y → y ≤ b → g x < g y)
    (hc : g c = 0) (hac : a ≤ c) (hcb : c ≤ b) :
    ∃ r, brentqBisect g a b = .ok r ∧
      |r - c| ≤ (b - a) / 2 ^ (brentqMaxIter + 1) := by
  have hab : a ≤ b := le_trans hac hcb
  unfold brentqBisect
  split_ifs with h1 h2 h3
  · have hce : a = c := by
      rcases eq_or_lt_of_le hac with h | h
      · exact h
      · have := hmono _ _ (le_refl a) h (le_trans hcb (le_refl b))
        rw [hc, h1] at this
        exact absurd this (lt_irrefl 0)
    refine ⟨a, rfl, ?_⟩
    rw [hce, sub_self, abs_zero]
    apply div_nonneg (by linarith) (by positivity)
  · have hce : b = c := by
      rcases eq_or_lt_of_le hcb with h | h
      · exact h.symm
      · have := hmono _ _ (le_trans hac (le_refl c)) h (le_refl b)
        rw [hc, h2] at this
        exact absurd this (lt_irrefl 0)
    refine ⟨b, rfl, ?_⟩
    rw [hce, sub_self, abs_zero]
    apply div_nonneg (by linarith) (by positivity)
  · exfalso
    have hga : g a < 0 := by
      rcases eq_or_lt_of_le hac with h | h
      · exact absurd (h ▸ hc) h1
      · have := hmono _ _ (le_refl a) h (le_trans hcb (le_refl b))
        rw [hc] at this
        exact this
    have hgb : 0 < g b := by
      rcases eq_or_lt_of_le hcb with h | h
      · exact absurd (show g b = 0 by rw [← h]; exact hc) h2
      · have := hmono _ _ (le_trans hac (le_refl c)) h (le_refl b)
        rw [hc] at this
        exact this
    nlinarith
  · have hga : g a < 0 := by
      rcases eq_or_lt_of_le hac with h | h
      · exact absurd (h ▸ hc) h1
      · have := hmono _ _ (le_refl a) h (le_trans hcb (le_refl b))
        rw [hc] at this
        exact this
    have hgb : 0 < g b := by
      rcases eq_or_lt_of_le hcb with h | h
      · exact absurd (show g b = 0 by rw [← h]; exact hc) h2
      · have := hmono _ _ (le_trans hac (le_refl c)) h (le_refl b)
        rw [hc] at this
        exact this
    exact ⟨_, rfl, bisect_close g a b hmono c hc brentqMaxIter a b
      (le_refl a) (le_refl b) hga hgb hac hcb⟩

theorem bisect_negEq (g : ℚ → ℚ) : ∀ (n : ℕ) (a b : ℚ),
    bisect (fun x => -(g x)) n a b = bisect g n a b
  | 0, _, _ => rfl
  | n + 1, a, b => by
    simp only [bisect]
    have hcond : (-(g ((a + b) / 2)) = 0) ↔ (g ((a + b) / 2) = 0) := by
      constructor <;> intro h <;> linarith
    have hcond2 : (-(g a) * -(g ((a + b) / 2)) < 0) ↔
        (g a * g ((a + b) / 2) < 0) := by
      constructor <;> intro h <;> nlinarith
    exact if_congr hcond rfl
      (if_congr hcond2 (bisect_negEq g n a ((a + b) / 2))
        (bisect_negEq g n ((a + b) / 2) b))

theorem brentqBisect_negEq (g : ℚ → ℚ) (a b : ℚ) :
    brentqBisect (fun x => -(g x)) a b = brentqBisect g a b := by
  unfold brentqBisect
  have h1 : (-(g a) = 0) ↔ (g a = 0) := by constructor <;> intro h <;> linarith
  have h2 : (-(g b) = 0) ↔ (g b = 0) := by constructor <;> intro h <;> linarith
  have h3 : (0 < -(g a) * -(g b)) ↔ (0 < g a * g b) := by
    constructor <;> intro h <;> nlinarith
  exact if_congr h1 rfl
    (if_congr h2 rfl
      (if_congr h3 rfl (by rw [bisect_negEq])))

theorem foldl_min_le_init (l : List ℚ) : ∀ a : ℚ, l.foldl min a ≤ a := by
  induction l with
  | nil => intro a; simp
  | cons x xs ih =>
    intro a
    simp only [List.foldl]
    exact le_trans (ih (min a x)) (min_le_left a x)

theorem foldl_min_le_mem (l : List ℚ) : ∀ (a x : ℚ), x ∈ l → l.foldl min a ≤ x := by
  induction l with
  | nil => intro a x hx; simp at hx
  | cons y ys ih =>
    intro a x hx
    simp only [List.foldl]
    rcases List.mem_cons.1 hx with rfl | hx2
    · exact le_trans (foldl_min_le_init ys (min a x)) (min_le_right a x)
    · exact ih (min a y) x hx2

theorem foldl_max_init_le (l : List ℚ) : ∀ a : ℚ, a ≤ l.foldl max a := by
  induction l with
  | nil => intro a; simp
  | cons x xs ih =>
    intro a
    simp only [List.foldl]
    exact le_trans (le_max_left a x) (ih (max a x))

theorem foldl_max_mem_le (l : List ℚ) : ∀ (a x : ℚ), x ∈ l → x ≤ l.foldl max a := by
  induction l with
  | nil => intro a x hx; simp at hx
  | cons y ys ih =>
    intro a x hx
    simp only [List.foldl]
    rcases List.mem_cons.1 hx with rfl | hx2
    · exact le_trans (le_max_right a x) (foldl_max_init_le ys (max a x))
    · exact ih (max a y) x hx2

theorem npMin_le (l : List ℚ) (x : ℚ) (hx : x ∈ l) : npMin l ≤ x := by
  cases l with
  | nil => simp at hx
  | cons y ys =>
    simp only [npMin]
    rcases List.mem_cons.1 hx with rfl | hx2
    · exact foldl_min_le_init ys x
    · exact foldl_min_le_mem ys y x hx2

theorem le_npMax (l : List ℚ) (x : ℚ) (hx : x ∈ l) : x ≤ npMax l := by
  cases l with
  | nil => simp at hx
  | cons y ys =>
    simp only [npMax]
    rcases List.mem_cons.1 hx with rfl | hx2
    · exact foldl_max_init_le ys x
    · exact foldl_max_mem_le ys y x hx2

theorem foldl_min_mem (l : List ℚ) : ∀ a : ℚ, l.foldl min a = a ∨ l.foldl min a ∈ l := by
  induction l with
  | nil => intro a; left; rfl
  | cons x xs ih =>
    intro a
    simp only [List.foldl]
    rcases ih (min a x) with h | h
    · rw [h]
      rcases le_total a x with hle | hle
      · left; exact min_eq_left hle
      · right
        rw [min_eq_right hle]
        exact List.mem_cons_self x xs
    · right; right; exact h

theorem npMin_mem (l : List ℚ) (h : l ≠ []) : npMin l ∈ l := by
  cases l with
  | nil => exact absurd rfl h
  | cons y ys =>
    simp only [npMin]
    rcases foldl_min_mem ys y with h2 | h2
    · rw [h2]; exact List.mem_cons_self y ys
    · exact List.mem_cons.2 (Or.inr h2)

theorem foldl_max_mem (l : List ℚ) : ∀ a : ℚ, l.foldl max a = a ∨ l.foldl max a ∈ l := by
  induction l with
  | nil => intro a; left; rfl
  | cons x xs ih =>
    intro a
    simp only [List.foldl]
    rcases ih (max a x) with h | h
    · rw [h]
      rcases le_total a x with hle | hle
      · right
        rw [max_eq_right hle]
        exact List.mem_cons_self x xs
      · left; exact max_eq_left hle
    · right; right; exact h

theorem npMax_mem (l : List ℚ) (h : l ≠ []) : npMax l ∈ l := by
  cases l with
  | nil => exact absurd rfl h
  | cons y ys =>
    simp only [npMax]
    rcases foldl_max_mem ys y with h2 | h2
    · rw [h2]; exact List.mem_cons_self y ys
    · exact List.mem_cons.2 (Or.inr h2)

theorem lastT_mem_fst : ∀ (pts : List (ℚ × ℚ)), pts ≠ [] →
    lastT pts ∈ pts.map Prod.fst
  | [], h => absurd rfl h
  | [(t, y)], _ => by simp [lastT]
  | p :: q :: rest, _ => by
    have ih := lastT_mem_fst (q :: rest) (by simp)
    simp only [List.map, lastT] at ih ⊢
    exact List.mem_cons.2 (Or.inr ih)

theorem sorted_le_lastT : ∀ (pts : List (ℚ × ℚ)),
    List.Chain' (· < ·) (pts.map Prod.fst) →
    ∀ x ∈ pts.map Prod.fst, x ≤ lastT pts
  | [], _, x, hx => by simp at hx
  | [(t, y)], _, x, hx => by
    simp only [List.map, List.mem_singleton] at hx
    simp [lastT, hx]
  | (t0, y0) :: (t1, y1) :: rest, ht, x, hx => by
    have ht' : List.Chain' (· < ·) (((t1, y1) :: rest).map Prod.fst) := by
      simp only [List.map, List.chain'_cons] at ht ⊢
      exact ht.2
    have ht01 : t0 < t1 := by
      simp only [List.map, List.chain'_cons] at ht
      exact ht.1
    have ih := sorted_le_lastT ((t1, y1) :: rest) ht'
    simp only [List.map, lastT] at ih hx ⊢
    rcases List.mem_cons.1 hx with rfl | hx2
    · have := ih t1 (List.mem_cons_self _ _)
      linarith
    · exact ih x hx2

theorem sorted_headT_le : ∀ (pts : List (ℚ × ℚ)),
    List.Chain' (· < ·) (pts.map Prod.fst) →
    ∀ x ∈ pts.map Prod.fst, headT pts ≤ x
  | [], _, x, hx => by simp at hx
  | (t0, y0) :: rest, ht, x, hx => by
    have hp : List.Pairwise (· < ·) (((t0, y0) :: rest).map Prod.fst) :=
      List.chain'_iff_pairwise.1 ht
    simp only [List.map, List.pairwise_cons] at hp
    simp only [headT]
    rcases List.mem_cons.1 hx with rfl | hx2
    · exact le_refl x
    · exact (hp.1 x hx2).le

theorem npMin_fst_eq_headT (pts : List (ℚ × ℚ)) (hne : pts ≠ [])
    (ht : List.Chain' (· < ·) (pts.map Prod.fst)) :
    npMin (pts.map Prod.fst) = headT pts := by
  have hmapne : pts.map Prod.fst ≠ [] := by
    cases pts with
    | nil => exact absurd rfl hne
    | cons p rest => simp
  apply le_antisymm
  · apply npMin_le
    cases pts with
    | nil => exact absurd rfl hne
    | cons p rest => simp [headT]
  · exact sorted_headT_le pts ht _ (npMin_mem _ hmapne)

theorem npMax_fst_eq_lastT (pts : List (ℚ × ℚ)) (hne : pts ≠ [])
    (ht : List.Chain' (· < ·) (pts.map Prod.fst)) :
    npMax (pts.map Prod.fst) = lastT pts := by
  have hmapne : pts.map Prod.fst ≠ [] := by
    cases pts with
    | nil => exact absurd rfl hne
    | cons p rest => simp
  apply le_antisymm
  · exact sorted_le_lastT pts ht _ (npMax_mem _ hmapne)
  · exact le_npMax _ _ (lastT_mem_fst pts hne)

theorem mkModel_ok (fam : String) (raw : List (ℚ × ℚ × String)) (fm : FamilyModel)
    (h : mkModel fam raw = .ok fm) :
    fm.pts = (sortByT raw).map (fun r => (r.1, r.2.1)) ∧
    2 ≤ fm.pts.length ∧
    List.Chain' (· < ·) (fm.pts.map Prod.fst) ∧
    fm.derivs = pchipDerivs fm.pts ∧
    fm.tmin = npMin (fm.pts.map Prod.fst) ∧
    fm.tmax = npMax (fm.pts.map Prod.fst) ∧
    fm.Emin = npMin (fm.pts.map Prod.snd) ∧
    fm.Emax = npMax (fm.pts.map Prod.snd) := by
  simp only [mkModel] at h
  split at h
  next h1 => exact absurd h (by simp)
  next h1 =>
    split at h
    next h2 => exact absurd h (by simp)
    next h2 =>
      obtain rfl := Except.ok.inj h
      push_neg at h1
      rw [not_not] at h2
      exact ⟨rfl, by simpa using h1, h2, rfl, rfl, rfl, rfl, rfl⟩

theorem buildAll_mem : ∀ (gs : List (String × List (ℚ × ℚ × String)))
    (ms : List (String × FamilyModel)) (fam : String) (fm : FamilyModel),
    buildAll gs = .ok ms → (fam, fm) ∈ ms →
    ∃ raw, (fam, raw) ∈ gs ∧ mkModel fam raw = .ok fm
  | [], ms, fam, fm, hok, hmem => by
    simp only [buildAll] at hok
    obtain rfl := Except.ok.inj hok
    simp at hmem
  | (f, raw) :: rest, ms, fam, fm, hok, hmem => by
    simp only [buildAll] at hok
    cases hmk : mkModel f raw with
    | error e =>
      rw [hmk] at hok
      exact absurd hok (by simp)
    | ok fm2 =>
      rw [hmk] at hok
      cases hrest : buildAll rest with
      | error e =>
        rw [hrest] at hok
        exact absurd hok (by simp)
      | ok ms2 =>
        rw [hrest] at hok
        obtain rfl := Except.ok.inj hok
        rcases List.mem_cons.1 hmem with heq | hmem2
        · obtain ⟨rfl, rfl⟩ := Prod.mk.injEq .. ▸ heq
          exact ⟨raw, List.mem_cons_self _ _, hmk⟩
        · obtain ⟨raw2, hr1, hr2⟩ := buildAll_mem rest ms2 fam fm hrest hmem2
          exact ⟨raw2, List.mem_cons.2 (Or.inr hr1), hr2⟩

theorem famPoints_append (ph : List Phantom) (p : Phantom) (fam : String) :
    famPoints (ph ++ [p]) fam =
      famPoints ph fam ++
        (if p.family = fam then [(p.thinner, p.E, p.label)] else []) := by
  by_cases h : p.family = fam <;>
    simp [famPoints, List.filter_append, List.filter_cons, h]

theorem addPhantom_keeps (acc : List (String × List (ℚ × ℚ × String)))
    (p : Phantom) (ps : List Phantom)
    (hI1 : ∀ fr ∈ acc, fr.2 = famPoints ps fr.1)
    (hI2 : ∀ fam, (∀ fr ∈ acc, fr.1 ≠ fam) → famPoints ps fam = []) :
    (∀ fr ∈ addPhantom acc p, fr.2 = famPoints (ps ++ [p]) fr.1) ∧
    (∀ fam, (∀ fr ∈ addPhantom acc p, fr.1 ≠ fam) →
      famPoints (ps ++ [p]) fam = []) := by
  unfold addPhantom
  by_cases hany : acc.any (fun g => decide (g.1 = p.family))
  · rw [if_pos (by simpa using hany)]
    constructor
    · intro fr hfr
      obtain ⟨g, hg, hfg⟩ := List.mem_map.1 hfr
      by_cases hgp : g.1 = p.family
      · rw [if_pos hgp] at hfg
        subst hfg
        rw [famPoints_append, if_pos (by rw [hgp]), ← hI1 g hg]
      · rw [if_neg hgp] at hfg
        subst hfg
        rw [famPoints_append, if_neg (fun hc => hgp hc.symm), List.append_nil]
        exact hI1 g hg
    · intro fam hall
      have hacc : ∀ fr ∈ acc, fr.1 ≠ fam := by
        intro g hg
        by_cases hgp : g.1 = p.family
        · have := hall (g.1, g.2 ++ [(p.thinner, p.E, p.label)])
            (List.mem_map.2 ⟨g, hg, by rw [if_pos hgp]⟩)
          exact this
        · exact hall g (List.mem_map.2 ⟨g, hg, by rw [if_neg hgp]⟩)
      have hpf : p.family ≠ fam := by
        rw [List.any_eq_true] at hany
        obtain ⟨g, hg, hgp⟩ := hany
        have hgp2 : g.1 = p.family := of_decide_eq_true hgp
        rw [← hgp2]
        exact hacc g hg
      rw [famPoints_append, if_neg hpf, List.append_nil]
      exact hI2 fam hacc
  · rw [if_neg (by simpa using hany)]
    rw [List.any_eq_true] at hany
    push_neg at hany
    constructor
    · intro fr hfr
      rcases List.mem_append.1 hfr with hold | hnew
      · have hne : fr.1 ≠ p.family := by
          intro hc
          exact absurd (decide_eq_true hc) (hany fr hold)
        rw [famPoints_append, if_neg (fun hc => hne hc.symm), List.append_nil]
        exact hI1 fr hold
      · simp only [List.mem_singleton] at hnew
        subst hnew
        rw [famPoints_append, if_pos rfl]
        have hempty : famPoints ps p.family = [] := by
          apply hI2
          intro fr hfr2 hc
          exact absurd (decide_eq_true (hc : fr.1 = p.family)) (hany fr hfr2)
        rw [hempty, List.nil_append]
    · intro fam hall
      have hacc : ∀ fr ∈ acc, fr.1 ≠ fam := by
        intro g hg
        exact hall g (List.mem_append.2 (Or.inl hg))
      have hpf : p.family ≠ fam :=
        hall (p.family, [(p.thinner, p.E, p.label)])
          (List.mem_append.2 (Or.inr (List.mem_singleton.2 rfl)))
      rw [famPoints_append, if_neg hpf, List.append_nil]
      exact hI2 fam hacc

theorem foldl_addPhantom_inv : ∀ (ph ps : List Phantom)
    (acc : List (String × List (ℚ × ℚ × String))),
    (∀ fr ∈ acc, fr.2 = famPoints ps fr.1) →
    (∀ fam, (∀ fr ∈ acc, fr.1 ≠ fam) → famPoints ps fam = []) →
    (∀ fr ∈ ph.foldl addPhantom acc, fr.2 = famPoints (ps ++ ph) fr.1) ∧
    (∀ fam, (∀ fr ∈ ph.foldl addPhantom acc, fr.1 ≠ fam) →
      famPoints (ps ++ ph) fam = [])
  | [], ps, acc, hI1, hI2 => by
    rw [List.foldl_nil, List.append_nil]
    exact ⟨hI1, hI2⟩
  | p :: rest, ps, acc, hI1, hI2 => by
    have hstep := addPhantom_keeps acc p ps hI1 hI2
    have hrec := foldl_addPhantom_inv rest (ps ++ [p]) (addPhantom acc p)
      hstep.1 hstep.2
    rw [show ps ++ [p] ++ rest = ps ++ p :: rest by simp] at hrec
    simpa using hrec

theorem groupByFamily_spec (ph : List Phantom) :
    ∀ fr ∈ groupByFamily ph, fr.2 = famPoints ph fr.1 := by
  have h := foldl_addPhantom_inv ph [] []
    (by intro fr hfr; simp at hfr)
    (by intro fam hall; simp [famPoints])
  simpa [groupByFamily] using h.1

theorem nbAux_snd_keep (tgt : ℚ) : ∀ (l : List Meas) (lo : Option Meas) (u : Meas),
    (nbAux tgt lo (some u) l).2 = some u
  | [], lo, u => rfl
  | m :: rest, lo, u => by
    have he : (if tgt ≤ m.1 ∧ (some u : Option Meas) = none then some m
        else some u) = some u :=
      if_neg (fun hc => absurd hc.2 (by simp))
    simp only [nbAux, he]
    exact nbAux_snd_keep tgt rest _ u

theorem nbAux_fst_none (tgt : ℚ) : ∀ (l : List Meas) (lo : Option Meas)
    (up : Option Meas),
    ((nbAux tgt lo up l).1 = none ↔ (lo = none ∧ ∀ m ∈ l, ¬ m.1 ≤ tgt))
  | [], lo, up => by simp [nbAux]
  | x :: rest, lo, up => by
    simp only [nbAux]
    by_cases hx : x.1 ≤ tgt
    · rw [if_pos hx]
      rw [nbAux_fst_none tgt rest (some x) _]
      constructor
      · intro h
        exact absurd h.1 (by simp)
      · intro h
        exact absurd hx (h.2 x (List.mem_cons_self _ _))
    · rw [if_neg hx]
      rw [nbAux_fst_none tgt rest lo _]
      constructor
      · intro h
        refine ⟨h.1, ?_⟩
        intro m hm
        rcases List.mem_cons.1 hm with rfl | hm2
        · exact hx
        · exact h.2 m hm2
      · intro h
        exact ⟨h.1, fun m hm => h.2 m (List.mem_cons.2 (Or.inr hm))⟩

theorem nbAux_fst_some (tgt : ℚ) : ∀ (l : List Meas) (lo : Option Meas)
    (up : Option Meas),
    List.Pairwise (fun a b : Meas => a.1 ≤ b.1) l →
    ∀ m, (nbAux tgt lo up l).1 = some m →
      (m ∈ l ∧ m.1 ≤ tgt ∧ ∀ m2 ∈ l, m2.1 ≤ tgt → m2.1 ≤ m.1) ∨
        (lo = some m ∧ ∀ m2 ∈ l, ¬ m2.1 ≤ tgt)
  | [], lo, up, _, m, hm => by
    right
    exact ⟨hm, by simp⟩
  | x :: rest, lo, up, hs, m, hm => by
    simp only [nbAux] at hm
    rw [List.pairwise_cons] at hs
    by_cases hx : x.1 ≤ tgt
    · rw [if_pos hx] at hm
      rcases nbAux_fst_some tgt rest (some x) _ hs.2 m hm with hA | hB
      · left
        refine ⟨List.mem_cons.2 (Or.inr hA.1), hA.2.1, ?_⟩
        intro m2 hm2 hle
        rcases List.mem_cons.1 hm2 with rfl | hm3
        · exact hs.1 m hA.1
        · exact hA.2.2 m2 hm3 hle
      · obtain ⟨hx2, hrest⟩ := hB
        obtain rfl := Option.some.inj hx2
        left
        refine ⟨List.mem_cons_self _ _, hx, ?_⟩
        intro m2 hm2 hle
        rcases List.mem_cons.1 hm2 with rfl | hm3
        · exact le_refl _
        · exact absurd hle (hrest m2 hm3)
    · rw [if_neg hx] at hm
      rcases nbAux_fst_some tgt rest lo _ hs.2 m hm with hA | hB
      · left
        refine ⟨List.mem_cons.2 (Or.inr hA.1), hA.2.1, ?_⟩
        intro m2 hm2 hle
        rcases List.mem_cons.1 hm2 with rfl | hm3
        · exact absurd hle hx
        · exact hA.2.2 m2 hm3 hle
      · right
        refine ⟨hB.1, ?_⟩
        intro m2 hm2
        rcases List.mem_cons.1 hm2 with rfl | hm3
        · exact hx
        · exact hB.2 m2 hm3

theorem nbAux_snd_spec (tgt : ℚ) : ∀ (l : List Meas) (lo : Option Meas),
    List.Pairwise (fun a b : Meas => a.1 ≤ b.1) l →
    ((nbAux tgt lo none l).2 = none ↔ ∀ m ∈ l, m.1 < tgt) ∧
    (∀ m, (nbAux tgt lo none l).2 = some m →
      m ∈ l ∧ tgt ≤ m.1 ∧ ∀ m2 ∈ l, tgt ≤ m2.1 → m.1 ≤ m2.1)
  | [], lo, _ => by simp [nbAux]
  | x :: rest, lo, hs => by
    rw [List.pairwise_cons] at hs
    simp only [nbAux]
    split_ifs with h1 h2 h3
    · rw [nbAux_snd_keep]
      have hx : tgt ≤ x.1 := h2.1
      constructor
      · constructor
        · intro h
          exact absurd h (by simp)
        · intro h
          exact absurd (h x (List.mem_cons_self _ _)) (not_lt.2 hx)
      · intro m hm
        obtain rfl := Option.some.inj hm
        refine ⟨List.mem_cons_self _ _, hx, ?_⟩
        intro m2 hm2 hle
        rcases List.mem_cons.1 hm2 with rfl | hm3
        · exact le_refl _
        · exact hs.1 m2 hm3
    · have hx : ¬ tgt ≤ x.1 := fun hh => h2 ⟨hh, by trivial⟩
      have ih := nbAux_snd_spec tgt rest (some x) hs.2
      constructor
      · rw [ih.1]
        constructor
        · intro h m hm
          rcases List.mem_cons.1 hm with rfl | hm2
          · exact not_le.1 hx
          · exact h m hm2
        · intro h m hm
          exact h m (List.mem_cons.2 (Or.inr hm))
      · intro m hm
        obtain ⟨hmem, hge, hmin⟩ := ih.2 m hm
        refine ⟨List.mem_cons.2 (Or.inr hmem), hge, ?_⟩
        intro m2 hm2 hle
        rcases List.mem_cons.1 hm2 with rfl | hm3
        · exact absurd hle hx
        · exact hmin m2 hm3 hle
    · rw [nbAux_snd_keep]
      have hx : tgt ≤ x.1 := h3.1
      constructor
      · constructor
        · intro h
          exact absurd h (by simp)
        · intro h
          exact absurd (h x (List.mem_cons_self _ _)) (not_lt.2 hx)
      · intro m hm
        obtain rfl := Option.some.inj hm
        refine ⟨List.mem_cons_self _ _, hx, ?_⟩
        intro m2 hm2 hle
        rcases List.mem_cons.1 hm2 with rfl | hm3
        · exact le_refl _
        · exact hs.1 m2 hm3
    · have hx : ¬ tgt ≤ x.1 := fun hh => h3 ⟨hh, by trivial⟩
      have ih := nbAux_snd_spec tgt rest lo hs.2
      constructor
      · rw [ih.1]
        constructor
        · intro h m hm
          rcases List.mem_cons.1 hm with rfl | hm2
          · exact not_le.1 hx
          · exact h m hm2
        · intro h m hm
          exact h m (List.mem_cons.2 (Or.inr hm))
      · intro m hm
        obtain ⟨hmem, hge, hmin⟩ := ih.2 m hm
        refine ⟨List.mem_cons.2 (Or.inr hmem), hge, ?_⟩
        intro m2 hm2 hle
        rcases List.mem_cons.1 hm2 with rfl | hm3
        · exact absurd hle hx
        · exact hmin m2 hm3 hle

theorem meas_value_inj : ∀ (l : List Meas),
    List.Pairwise (fun a b : Meas => a.1 < b.1) l →
    ∀ a ∈ l, ∀ b ∈ l, a.1 = b.1 → a = b
  | [], _, a, ha, b, hb, hab => by simp at ha
  | x :: rest, hs, a, ha, b, hb, hab => by
    rw [List.pairwise_cons] at hs
    rcases List.mem_cons.1 ha with rfl | ha2
    · rcases List.mem_cons.1 hb with rfl | hb2
      · rfl
      · exact absurd hab (ne_of_lt (hs.1 b hb2))
    · rcases List.mem_cons.1 hb with rfl | hb2
      · exact absurd hab.symm (ne_of_lt (hs.1 a ha2))
      · exact meas_value_inj rest hs.2 a ha2 b hb2 hab

theorem hms_length : ∀ (p : ℚ × ℚ) (pts : List (ℚ × ℚ)),
    (hms (p :: pts)).length = pts.length
  | _, [] => rfl
  | (t0, y0), (t1, y1) :: rest => by
    have ih := hms_length (t1, y1) rest
    simp only [hms, List.length_cons] at ih ⊢
    rw [ih]

theorem derivsFrom_length : ∀ (l : List (ℚ × ℚ)), 2 ≤ l.length →
    (derivsFrom l).length = l.length
  | [], h => by simp at h
  | [_], h => by simp at h
  | [_, _], _ => rfl
  | p0 :: p1 :: p2 :: rest, _ => by
    have ih := derivsFrom_length (p1 :: p2 :: rest) (by simp)
    simp only [derivsFrom, List.length_cons] at ih ⊢
    rw [ih]

theorem pchipDerivs_length (pts : List (ℚ × ℚ)) (h2 : 2 ≤ pts.length) :
    (pchipDerivs pts).length = pts.length := by
  match pts with
  | [] => simp at h2
  | [_] => simp at h2
  | [(t0, y0), (t1, y1)] => rfl
  | (t0, y0) :: (t1, y1) :: (t2, y2) :: rest =>
    show (pchipDerivs ((t0, y0) :: (t1, y1) :: (t2, y2) :: rest)).length = _
    simp only [pchipDerivs, hms]
    simp only [List.length_cons]
    rw [derivsFrom_length ((t1 - t0, (y1 - y0) / (t1 - t0)) ::
      (t2 - t1, (y2 - y1) / (t2 - t1)) :: hms ((t2, y2) :: rest)) (by simp)]
    simp only [List.length_cons]
    rw [hms_length (t2, y2) rest]

theorem build_model_facts (ph : List Phantom) (ms : List (String × FamilyModel))
    (fam : String) (fm : FamilyModel)
    (hb : build_family_models ph = .ok ms) (hm : (fam, fm) ∈ ms) :
    2 ≤ fm.pts.length ∧
    List.Chain' (· < ·) (fm.pts.map Prod.fst) ∧
    fm.derivs = pchipDerivs fm.pts ∧
    fm.tmin = headT fm.pts ∧
    fm.tmax = lastT fm.pts ∧
    fm.Emin = npMin (fm.pts.map Prod.snd) ∧
    fm.Emax = npMax (fm.pts.map Prod.snd) ∧
    (∀ p ∈ ph, p.family = fam → (p.thinner, p.E) ∈ fm.pts) := by
  unfold build_family_models at hb
  obtain ⟨raw, hraw, hmk⟩ := buildAll_mem _ _ _ _ hb hm
  obtain ⟨hpts, hlen, hchain, hderivs, htmin, htmax, hEmin, hEmax⟩ :=
    mkModel_ok _ _ _ hmk
  have hne : fm.pts ≠ [] := by
    intro hc
    rw [hc] at hlen
    simp at hlen
  refine ⟨hlen, hchain, hderivs, ?_, ?_, hEmin, hEmax, ?_⟩
  · rw [htmin, npMin_fst_eq_headT _ hne hchain]
  · rw [htmax, npMax_fst_eq_lastT _ hne hchain]
  · intro p hp hfam
    have hrawspec : raw = famPoints ph fam := groupByFamily_spec ph (fam, raw) hraw
    have htriple : (p.thinner, p.E, p.label) ∈ raw := by
      rw [hrawspec]
      unfold famPoints
      exact List.mem_map.2 ⟨p, List.mem_filter.2 ⟨hp, by simp [hfam]⟩, rfl⟩
    have hsorted : (p.thinner, p.E, p.label) ∈ sortByT raw :=
      ((List.perm_insertionSort _ raw).mem_iff).2 htriple
    rw [hpts]
    exact List.mem_map.2 ⟨(p.thinner, p.E, p.label), hsorted, rfl⟩

theorem build_phIncr : build_family_models phIncr = .ok [("F1", fmIncr)] := by
  norm_num [build_family_models, groupByFamily, addPhantom, phIncr, buildAll,
    mkModel, sortByT, List.insertionSort, List.orderedInsert, pchipDerivs, hms,
    derivsFrom, interD1, edgeCase, qsign, npMin, npMax, fmIncr,
    List.chain'_cons, min_def, max_def, abs_of_nonneg]

theorem build_phPlat : build_family_models phPlat = .ok [("F3", fmPlat)] := by
  norm_num [build_family_models, groupByFamily, addPhantom, phPlat, buildAll,
    mkModel, sortByT, List.insertionSort, List.orderedInsert, pchipDerivs, hms,
    derivsFrom, interD1, edgeCase, qsign, npMin, npMax, fmPlat,
    List.chain'_cons, min_def, max_def, abs_of_nonneg]

/-- C1: for every family model built by `build_family_models`, evaluating the
interpolant strictly outside the family domain `[tmin, tmax]` produces no
numeric value (scipy's `extrapolate=False` NaN, embedded as `none`),
evaluation anywhere inside the domain produces a value, and the domain
bounds are exactly the least and greatest measured concentration. -/
theorem c1_evaluate_refuses_extrapolation (ph : List Phantom)
    (ms : List (String × FamilyModel)) (fam : String) (fm : FamilyModel)
    (hb : build_family_models ph = .ok ms) (hm : (fam, fm) ∈ ms) (x : ℚ) :
    ((x < fm.tmin ∨ fm.tmax < x) → interpEval fm x = none) ∧
    (fm.tmin ≤ x → x ≤ fm.tmax → ∃ v, interpEval fm x = some v) ∧
    fm.tmin = npMin (fm.pts.map Prod.fst) ∧
    fm.tmax = npMax (fm.pts.map Prod.fst) := by
  obtain ⟨hlen, hchain, hderivs, htmin, htmax, hEmin, hEmax, hmem⟩ :=
    build_model_facts ph ms fam fm hb hm
  have hne : fm.pts ≠ [] := by
    intro hc
    rw [hc] at hlen
    simp at hlen
  refine ⟨?_, ?_, ?_, ?_⟩
  · intro h
    unfold interpEval
    rw [if_pos h]
  · intro h1 h2
    unfold interpEval
    rw [if_neg (by push_neg; exact ⟨h1, h2⟩)]
    exact ⟨_, rfl⟩
  · rw [htmin, npMin_fst_eq_headT _ hne hchain]
  · rw [htmax, npMax_fst_eq_lastT _ hne hchain]

theorem c1_witness :
    (((3:ℚ) < fmIncr.tmin ∨ fmIncr.tmax < 3) → interpEval fmIncr 3 = none) ∧
    (fmIncr.tmin ≤ 3 → (3:ℚ) ≤ fmIncr.tmax → ∃ v, interpEval fmIncr 3 = some v) ∧
    fmIncr.tmin = npMin (fmIncr.pts.map Prod.fst) ∧
    fmIncr.tmax = npMax (fmIncr.pts.map Prod.fst) :=
  c1_evaluate_refuses_extrapolation phIncr [("F1", fmIncr)] "F1" fmIncr
    build_phIncr (by simp) 3

/-- C2: on a global measurement index sorted ascending by property value,
`nearest_bounds` returns as `lower` a measurement of greatest value `≤`
target (`none` exactly when the target is below every measurement), as
`upper` a measurement of least value `≥` target (`none` exactly when the
target is above every measurement), and when the values are distinct and one
equals the target exactly, that measurement is returned as both bounds. -/
theorem c2_nearest_bounds_spec (l : List Meas) (tgt : ℚ)
    (hs : List.Pairwise (fun a b : Meas => a.1 ≤ b.1) l) :
    ((nearest_bounds l tgt).1 = none ↔ ∀ m ∈ l, tgt < m.1) ∧
    (∀ m, (nearest_bounds l tgt).1 = some m →
      m ∈ l ∧ m.1 ≤ tgt ∧ ∀ m2 ∈ l, m2.1 ≤ tgt → m2.1 ≤ m.1) ∧
    ((nearest_bounds l tgt).2 = none ↔ ∀ m ∈ l, m.1 < tgt) ∧
    (∀ m, (nearest_bounds l tgt).2 = some m →
      m ∈ l ∧ tgt ≤ m.1 ∧ ∀ m2 ∈ l, tgt ≤ m2.1 → m.1 ≤ m2.1) ∧
    (List.Pairwise (fun a b : Meas => a.1 < b.1) l →
      ∀ m ∈ l, m.1 = tgt →
        (nearest_bounds l tgt).1 = some m ∧ (nearest_bounds l tgt).2 = some m) := by
  have hfst_none := nbAux_fst_none tgt l none none
  have hfst_some := nbAux_fst_some tgt l none none hs
  have hsnd := nbAux_snd_spec tgt l none hs
  refine ⟨?_, ?_, hsnd.1, hsnd.2, ?_⟩
  · unfold nearest_bounds
    rw [hfst_none]
    simp only [true_and]
    constructor
    · intro h m hm
      exact not_le.1 (h m hm)
    · intro h m hm
      exact not_le.2 (h m hm)
  · intro m hm
    rcases hfst_some m hm with hA | hB
    · exact hA
    · exact absurd hB.1 (by simp)
  · intro hstrict m hmem hval
    constructor
    · rcases hlow : (nearest_bounds l tgt).1 with _ | mp
      · exfalso
        exact ((hfst_none.1 hlow).2 m hmem) (le_of_eq hval)
      · rcases hfst_some mp hlow with hA | hB
        · obtain ⟨hm1, hm2, hm3⟩ := hA
          have h1 : m.1 ≤ mp.1 := hm3 m hmem (le_of_eq hval)
          have h2 : mp.1 ≤ m.1 := by rw [hval]; exact hm2
          have heq : mp = m :=
            meas_value_inj l hstrict mp hm1 m hmem (le_antisymm h2 h1)
          rw [← heq]
        · exact absurd hB.1 (by simp)
    · rcases hup : (nearest_bounds l tgt).2 with _ | mp
      · exfalso
        have := (hsnd.1).1 hup m hmem
        rw [hval] at this
        exact lt_irrefl tgt this
      · obtain ⟨hm1, hm2, hm3⟩ := hsnd.2 mp hup
        have h1 : mp.1 ≤ m.1 := hm3 m hmem (le_of_eq hval.symm)
        have h2 : m.1 ≤ mp.1 := by rw [hval]; exact hm2
        have heq : mp = m :=
          meas_value_inj l hstrict mp hm1 m hmem (le_antisymm h1 h2)
        rw [← heq]

theorem c2_witness :
    ((nearest_bounds measIdx 20).1 = none ↔ ∀ m ∈ measIdx, (20:ℚ) < m.1) ∧
    (∀ m, (nearest_bounds measIdx 20).1 = some m →
      m ∈ measIdx ∧ m.1 ≤ 20 ∧ ∀ m2 ∈ measIdx, m2.1 ≤ 20 → m2.1 ≤ m.1) ∧
    ((nearest_bounds measIdx 20).2 = none ↔ ∀ m ∈ measIdx, m.1 < 20) ∧
    (∀ m, (nearest_bounds measIdx 20).2 = some m →
      m ∈ measIdx ∧ (20:ℚ) ≤ m.1 ∧ ∀ m2 ∈ measIdx, (20:ℚ) ≤ m2.1 → m.1 ≤ m2.1) ∧
    (List.Pairwise (fun a b : Meas => a.1 < b.1) measIdx →
      ∀ m ∈ measIdx, m.1 = 20 →
        (nearest_bounds measIdx 20).1 = some m ∧
          (nearest_bounds measIdx 20).2 = some m) :=
  c2_nearest_bounds_spec measIdx 20
    (by norm_num [measIdx, List.pairwise_cons])

/-- C3: a family is reported feasible by the app's feasibility comprehension
exactly when the target value lies within that family's measured property
range `[Emin, Emax]`, inclusive at both endpoints. -/
theorem c3_feasible_iff (families : List (String × FamilyModel)) (Etar : ℚ)
    (fam : String) :
    fam ∈ feasible families Etar ↔
      ∃ fm, (fam, fm) ∈ families ∧ fm.Emin ≤ Etar ∧ Etar ≤ fm.Emax := by
  unfold feasible
  constructor
  · intro h
    obtain ⟨fd, hfd, hfst⟩ := List.mem_map.1 h
    obtain ⟨hmem, hcond⟩ := List.mem_filter.1 hfd
    obtain ⟨h1, h2⟩ := of_decide_eq_true hcond
    refine ⟨fd.2, ?_, h1, h2⟩
    rw [← hfst, Prod.mk.eta]
    exact hmem
  · rintro ⟨fm, hmem, h1, h2⟩
    exact List.mem_map.2 ⟨(fam, fm),
      List.mem_filter.2 ⟨hmem, decide_eq_true ⟨h1, h2⟩⟩, rfl⟩

/-- C4: the app's `parse_thinner_from_label` decomposes both `"A10_12_5T"`
and `"A10_12.5T"` to family `"A10"` and concentration `12.5`, but the plot
script's `thinner_str` (which splits at every underscore and takes index 1)
decomposes `"A10_12_5T"` to `12.0`, not `12.5`, contradicting its own
comment "Handle labels like EF10_12.5T or EF10_12_5T". -/
theorem c4_label_decomposition :
    parse_thinner_from_label "A10_12_5T" = some (25 / 2) ∧
    parse_thinner_from_label "A10_12.5T" = some (25 / 2) ∧
    family_from_label "A10_12_5T" = "A10" ∧
    family_from_label "A10_12.5T" = "A10" ∧
    script_family_from_label "A10_12_5T" = "A10" ∧
    script_thinner_from_label "A10_12.5T" = some (25 / 2) ∧
    script_thinner_from_label "A10_12_5T" = some 12 ∧
    (25 / 2 : ℚ) ≠ 12 := by
  refine ⟨?_, ?_, ?_, ?_, ?_, ?_, ?_, by norm_num⟩
  · simp +decide [parse_thinner_from_label, breakAtFirst, parseDecimal,
      splitAll, natAux]
    norm_num
  · simp +decide [parse_thinner_from_label, breakAtFirst, parseDecimal,
      splitAll, natAux]
    norm_num
  · simp +decide [family_from_label, breakAtFirst]
  · simp +decide [family_from_label, breakAtFirst]
  · simp +decide [script_family_from_label, splitAll]
  · simp +decide [script_thinner_from_label, parseDecimal, splitAll, natAux]
    norm_num
  · simp +decide [script_thinner_from_label, parseDecimal, splitAll, natAux]

/-- C9: a dataset with one well-formed two-point family `F1` and one
single-point family `F2` makes `build_family_models` fail as a whole (scipy
raises while building the `F2` interpolant), so no model is produced for the
well-formed sibling family `F1` either, contradicting the spec's locality
of per-family errors. -/
theorem c9_single_point_family_aborts_build :
    build_family_models phMix = .error (.tooFewPoints "F2") ∧
    (¬ ∃ ms, build_family_models phMix = .ok ms) := by
  have h : build_family_models phMix = .error (.tooFewPoints "F2") := by
    norm_num [build_family_models, groupByFamily, addPhantom, phMix, buildAll,
      mkModel, sortByT, List.insertionSort, List.orderedInsert, pchipDerivs,
      hms, derivsFrom, interD1, edgeCase, qsign, npMin, npMax,
      List.chain'_cons, min_def, max_def, abs_of_nonneg]
  refine ⟨h, ?_⟩
  rintro ⟨ms, hms2⟩
  rw [h] at hms2
  exact absurd hms2 (by simp)

/-- C5: for a family model built by `build_family_models` whose measured
values are monotone (nondecreasing or nonincreasing) in concentration, the
PCHIP interpolant is monotone in the same direction across the whole domain,
and on each knot interval its values stay within the span of the two
neighbouring measurements (shape preservation, no fabricated extremes). -/
theorem c5_monotone_shape_preserving (ph : List Phantom)
    (ms : List (String × FamilyModel)) (fam : String) (fm : FamilyModel)
    (hb : build_family_models ph = .ok ms) (hm : (fam, fm) ∈ ms) :
    ((List.Chain' (· ≤ ·) (fm.pts.map Prod.snd)) →
      ∀ x1 x2, fm.tmin ≤ x1 → x1 ≤ x2 → x2 ≤ fm.tmax →
        evalSeg fm.pts fm.derivs x1 ≤ evalSeg fm.pts fm.derivs x2) ∧
    ((List.Chain' (fun a b : ℚ => b ≤ a) (fm.pts.map Prod.snd)) →
      ∀ x1 x2, fm.tmin ≤ x1 → x1 ≤ x2 → x2 ≤ fm.tmax →
        evalSeg fm.pts fm.derivs x2 ≤ evalSeg fm.pts fm.derivs x1) ∧
    (∀ i (hi : i + 1 < fm.pts.length) x,
      (fm.pts.get ⟨i, Nat.lt_of_succ_lt hi⟩).1 ≤ x →
      x ≤ (fm.pts.get ⟨i + 1, hi⟩).1 →
      ((List.Chain' (· ≤ ·) (fm.pts.map Prod.snd)) →
        (fm.pts.get ⟨i, Nat.lt_of_succ_lt hi⟩).2 ≤ evalSeg fm.pts fm.derivs x ∧
        evalSeg fm.pts fm.derivs x ≤ (fm.pts.get ⟨i + 1, hi⟩).2) ∧
      ((List.Chain' (fun a b : ℚ => b ≤ a) (fm.pts.map Prod.snd)) →
        (fm.pts.get ⟨i + 1, hi⟩).2 ≤ evalSeg fm.pts fm.derivs x ∧
        evalSeg fm.pts fm.derivs x ≤ (fm.pts.get ⟨i, Nat.lt_of_succ_lt hi⟩).2)) := by
  obtain ⟨hlen, hchain, hderivs, htmin, htmax, hEmin, hEmax, hmemf⟩ :=
    build_model_facts ph ms fam fm hb hm
  have hdlen : fm.derivs.length = fm.pts.length := by
    rw [hderivs]
    exact pchipDerivs_length fm.pts hlen
  have hmono : (List.Chain' (· ≤ ·) (fm.pts.map Prod.snd)) →
      ∀ x1 x2, fm.tmin ≤ x1 → x1 ≤ x2 → x2 ≤ fm.tmax →
        evalSeg fm.pts fm.derivs x1 ≤ evalSeg fm.pts fm.derivs x2 := by
    intro hy x1 x2 h1 h2 h3
    rw [htmin] at h1
    rw [htmax] at h3
    rw [hderivs]
    exact evalSeg_mono fm.pts (pchipDerivs fm.pts)
      (segOK_pchipDerivs fm.pts hlen hchain hy) x1 x2 h1 h2 h3
  have hanti : (List.Chain' (fun a b : ℚ => b ≤ a) (fm.pts.map Prod.snd)) →
      ∀ x1 x2, fm.tmin ≤ x1 → x1 ≤ x2 → x2 ≤ fm.tmax →
        evalSeg fm.pts fm.derivs x2 ≤ evalSeg fm.pts fm.derivs x1 := by
    intro hy x1 x2 h1 h2 h3
    rw [htmin] at h1
    rw [htmax] at h3
    rw [hderivs]
    exact evalSeg_anti fm.pts hlen hchain hy x1 x2 h1 h2 h3
  have hknot : ∀ j (hj : j < fm.pts.length),
      evalSeg fm.pts fm.derivs (fm.pts.get ⟨j, hj⟩).1 =
        (fm.pts.get ⟨j, hj⟩).2 := by
    intro j hj
    apply evalSeg_knot fm.pts fm.derivs hlen hdlen hchain
    · rw [Prod.mk.eta]
      exact fm.pts.get_mem _ _
    · exact sorted_le_lastT fm.pts hchain _
        (List.mem_map.2 ⟨_, fm.pts.get_mem _ _, rfl⟩)
  have hheadle : ∀ j (hj : j < fm.pts.length),
      headT fm.pts ≤ (fm.pts.get ⟨j, hj⟩).1 := by
    intro j hj
    exact sorted_headT_le fm.pts hchain _
      (List.mem_map.2 ⟨_, fm.pts.get_mem _ _, rfl⟩)
  have hlastle : ∀ j (hj : j < fm.pts.length),
      (fm.pts.get ⟨j, hj⟩).1 ≤ lastT fm.pts := by
    intro j hj
    exact sorted_le_lastT fm.pts hchain _
      (List.mem_map.2 ⟨_, fm.pts.get_mem _ _, rfl⟩)
  refine ⟨hmono, hanti, ?_⟩
  intro i hi x hxa hxb
  have hi0 : i < fm.pts.length := Nat.lt_of_succ_lt hi
  have hxmin : fm.tmin ≤ x := by
    rw [htmin]
    exact le_trans (hheadle i hi0) hxa
  have hxmax : x ≤ fm.tmax := by
    rw [htmax]
    exact le_trans hxb (hlastle (i + 1) hi)
  have htimin : fm.tmin ≤ (fm.pts.get ⟨i, hi0⟩).1 := by
    rw [htmin]
    exact hheadle i hi0
  have htimax : (fm.pts.get ⟨i + 1, hi⟩).1 ≤ fm.tmax := by
    rw [htmax]
    exact hlastle (i + 1) hi
  constructor
  · intro hy
    constructor
    · rw [← hknot i hi0]
      exact hmono hy _ x htimin hxa hxmax
    · rw [← hknot (i + 1) hi]
      exact hmono hy x _ hxmin hxb htimax
  · intro hy
    constructor
    · rw [← hknot (i + 1) hi]
      exact hanti hy x _ hxmin hxb htimax
    · rw [← hknot i hi0]
      exact hanti hy _ x htimin hxa hxmax

theorem c5_witness :
    evalSeg fmIncr.pts fmIncr.derivs 0 ≤ evalSeg fmIncr.pts fmIncr.derivs 1 :=
  (c5_monotone_shape_preserving phIncr [("F1", fmIncr)] "F1" fmIncr
    build_phIncr (by simp)).1
    (by norm_num [fmIncr, List.chain'_cons]) 0 1
    (by norm_num [fmIncr]) (by norm_num) (by norm_num [fmIncr])

/-- C6: for every family model built by `build_family_models` (at least two
points, distinct concentrations), evaluating the interpolant at each of the
family's measured concentrations returns exactly that measurement's property
value: the interpolant passes through its knots. -/
theorem c6_interpolation_through_knots (ph : List Phantom)
    (ms : List (String × FamilyModel)) (fam : String) (fm : FamilyModel)
    (hb : build_family_models ph = .ok ms) (hm : (fam, fm) ∈ ms)
    (p : Phantom) (hp : p ∈ ph) (hfam : p.family = fam) :
    interpEval fm p.thinner = some p.E := by
  obtain ⟨hlen, hchain, hderivs, htmin, htmax, hEmin, hEmax, hmemf⟩ :=
    build_model_facts ph ms fam fm hb hm
  have hdlen : fm.derivs.length = fm.pts.length := by
    rw [hderivs]
    exact pchipDerivs_length fm.pts hlen
  have hmem : (p.thinner, p.E) ∈ fm.pts := hmemf p hp hfam
  have hfstmem : p.thinner ∈ fm.pts.map Prod.fst :=
    List.mem_map.2 ⟨(p.thinner, p.E), hmem, rfl⟩
  have h1 : fm.tmin ≤ p.thinner := by
    rw [htmin]
    exact sorted_headT_le fm.pts hchain _ hfstmem
  have h2 : p.thinner ≤ fm.tmax := by
    rw [htmax]
    exact sorted_le_lastT fm.pts hchain _ hfstmem
  unfold interpEval
  rw [if_neg (by push_neg; exact ⟨h1, h2⟩)]
  congr 1
  apply evalSeg_knot fm.pts fm.derivs hlen hdlen hchain _ _ hmem
  rw [← htmax]
  exact h2

theorem c6_witness : interpEval fmIncr 1 = some 20 :=
  c6_interpolation_through_knots phIncr [("F1", fmIncr)] "F1" fmIncr
    build_phIncr (by simp) ⟨"F1_1T", "F1", 1, 20⟩ (by simp [phIncr]) rfl

theorem headT_le_lastT (pts : List (ℚ × ℚ)) (hne : pts ≠ [])
    (ht : List.Chain' (· < ·) (pts.map Prod.fst)) : headT pts ≤ lastT pts := by
  cases pts with
  | nil => exact absurd rfl hne
  | cons p rest =>
    exact sorted_le_lastT _ ht _ (List.mem_map.2 ⟨p, List.mem_cons_self _ _,
      by simp [headT]⟩)

/-- C8 (amended): the inverter performs no feasibility re-validation of its
own; for a target strictly outside a built family's measured value range
`[Emin, Emax]` it fails because the bracketed root finder sees the same
nonzero sign at both domain endpoints (scipy `brentq`'s ValueError, the
analogue of the spec's `RootFindingError`), never with an
`InfeasibleTargetError`. -/
theorem c8_out_of_range_bracket_failure (ph : List Phantom)
    (ms : List (String × FamilyModel)) (fam : String) (fm : FamilyModel)
    (hb : build_family_models ph = .ok ms) (hm : (fam, fm) ∈ ms) (Et : ℚ)
    (hout : Et < fm.Emin ∨ fm.Emax < Et) :
    invert_family fm Et = .error .bracketFailure := by
  obtain ⟨hlen, hchain, hderivs, htmin, htmax, hEmin, hEmax, hmemf⟩ :=
    build_model_facts ph ms fam fm hb hm
  have hdlen : fm.derivs.length = fm.pts.length := by
    rw [hderivs]
    exact pchipDerivs_length fm.pts hlen
  have hne : fm.pts ≠ [] := by
    intro hc
    rw [hc] at hlen
    simp at hlen
  obtain ⟨pl, hpl, hpl1⟩ := List.mem_map.1 (lastT_mem_fst fm.pts hne)
  rcases hpts : fm.pts with _ | ⟨⟨t0, y0⟩, rest⟩
  · exact absurd hpts hne
  have hheadmem : (t0, y0) ∈ fm.pts := by
    rw [hpts]
    exact List.mem_cons_self _ _
  have hheadT : headT fm.pts = t0 := by
    rw [hpts]
    rfl
  have e1 : evalSeg fm.pts fm.derivs fm.tmin = y0 := by
    rw [htmin, hheadT]
    apply evalSeg_knot fm.pts fm.derivs hlen hdlen hchain _ _ hheadmem
    exact sorted_le_lastT fm.pts hchain _
      (List.mem_map.2 ⟨(t0, y0), hheadmem, rfl⟩)
  have e2 : evalSeg fm.pts fm.derivs fm.tmax = pl.2 := by
    rw [htmax, ← hpl1]
    apply evalSeg_knot fm.pts fm.derivs hlen hdlen hchain _ _
      (by rw [Prod.mk.eta]; exact hpl)
    rw [hpl1]
  have hy0a : fm.Emin ≤ y0 := by
    rw [hEmin]
    exact npMin_le _ _ (List.mem_map.2 ⟨(t0, y0), hheadmem, rfl⟩)
  have hy0b : y0 ≤ fm.Emax := by
    rw [hEmax]
    exact le_npMax _ _ (List.mem_map.2 ⟨(t0, y0), hheadmem, rfl⟩)
  have hpla : fm.Emin ≤ pl.2 := by
    rw [hEmin]
    exact npMin_le _ _ (List.mem_map.2 ⟨pl, hpl, rfl⟩)
  have hplb : pl.2 ≤ fm.Emax := by
    rw [hEmax]
    exact le_npMax _ _ (List.mem_map.2 ⟨pl, hpl, rfl⟩)
  have hya : 0 < (y0 - Et) * (pl.2 - Et) ∧ y0 - Et ≠ 0 ∧ pl.2 - Et ≠ 0 := by
    rcases hout with h | h
    · have h1 : 0 < y0 - Et := by linarith
      have h2 : 0 < pl.2 - Et := by linarith
      exact ⟨mul_pos h1 h2, ne_of_gt h1, ne_of_gt h2⟩
    · have h1 : y0 - Et < 0 := by linarith
      have h2 : pl.2 - Et < 0 := by linarith
      exact ⟨mul_pos_of_neg_of_neg h1 h2, ne_of_lt h1, ne_of_lt h2⟩
  rw [← hpts] at *
  unfold invert_family brentqBisect
  split_ifs with h1 h2 h3
  · exfalso
    simp only at h1
    rw [e1] at h1
    exact hya.2.1 h1
  · exfalso
    simp only at h2
    rw [e2] at h2
    exact hya.2.2 h2
  · rfl
  · exfalso
    apply h3
    simp only
    rw [e1, e2]
    exact hya.1

theorem c8_witness : invert_family fmIncr 999 = .error .bracketFailure :=
  c8_out_of_range_bracket_failure phIncr [("F1", fmIncr)] "F1" fmIncr
    build_phIncr (by simp) 999 (by norm_num [fmIncr])

theorem c8_counterexample :
    build_family_models phIncr = .ok [("F1", fmIncr)] ∧
    fmIncr.Emax < 999 ∧
    invert_family fmIncr 999 = .error .bracketFailure ∧
    invert_family fmIncr 999 ≠ .error .infeasibleTarget := by
  have h : invert_family fmIncr 999 = .error .bracketFailure := by
    norm_num [invert_family, brentqBisect, fmIncr, evalSeg, hermite]
  refine ⟨build_phIncr, by norm_num [fmIncr], h, ?_⟩
  rw [h]
  intro hc
  have := Except.error.inj hc
  exact absurd this (by simp)

theorem brentqBisect_mem (g : ℚ → ℚ) (a b : ℚ) (r : ℚ) (hab : a ≤ b)
    (h : brentqBisect g a b = .ok r) : a ≤ r ∧ r ≤ b := by
  unfold brentqBisect at h
  split_ifs at h with h1 h2 h3
  all_goals first
    | (obtain rfl := Except.ok.inj h
       first
         | exact ⟨le_refl _, hab⟩
         | exact ⟨hab, le_refl _⟩
         | exact bisect_mem g brentqMaxIter a b hab)
    | exact absurd h (by simp)

/-- C10: whenever `invert_family` returns successfully, the concentration it
returns lies within the model's domain `[tmin, tmax]`: the root search is
bracketed by the domain endpoints. -/
theorem c10_inversion_within_domain (ph : List Phantom)
    (ms : List (String × FamilyModel)) (fam : String) (fm : FamilyModel)
    (hb : build_family_models ph = .ok ms) (hm : (fam, fm) ∈ ms)
    (Et ts Ep : ℚ) (hok : invert_family fm Et = .ok (ts, Ep)) :
    fm.tmin ≤ ts ∧ ts ≤ fm.tmax := by
  obtain ⟨hlen, hchain, hderivs, htmin, htmax, hEmin, hEmax, hmemf⟩ :=
    build_model_facts ph ms fam fm hb hm
  have hne : fm.pts ≠ [] := by
    intro hc
    rw [hc] at hlen
    simp at hlen
  have hab : fm.tmin ≤ fm.tmax := by
    rw [htmin, htmax]
    exact headT_le_lastT fm.pts hne hchain
  have hmem := brentqBisect_mem (fun t => evalSeg fm.pts fm.derivs t - Et)
    fm.tmin fm.tmax
  unfold invert_family at hok
  cases hbr : brentqBisect (fun t => evalSeg fm.pts fm.derivs t - Et)
      fm.tmin fm.tmax with
  | error e =>
    rw [hbr] at hok
    exact absurd hok (by simp)
  | ok r =>
    rw [hbr] at hok
    have hpair := Except.ok.inj hok
    have hts : r = ts := congrArg Prod.fst hpair
    rw [← hts]
    exact hmem r hab hbr

theorem c10_witness : fmIncr.tmin ≤ 0 ∧ (0:ℚ) ≤ fmIncr.tmax :=
  c10_inversion_within_domain phIncr [("F1", fmIncr)] "F1" fmIncr
    build_phIncr (by simp) 10 0 10
    (by norm_num [invert_family, brentqBisect, fmIncr, evalSeg, hermite])

/-- C7 (amended): for a built family model whose measured values are
STRICTLY monotone in concentration, inverting the model at `evaluate(c)`
recovers `c` to within the bisection root-finder's convergence tolerance
`(tmax - tmin) / 2 ^ (maxiter + 1)`, for any `c` in the domain.  (With
merely monotone values a flat plateau defeats recovery, see the
counterexample.) -/
theorem c7_inversion_recovers_concentration (ph : List Phantom)
    (ms : List (String × FamilyModel)) (fam : String) (fm : FamilyModel)
    (hb : build_family_models ph = .ok ms) (hm : (fam, fm) ∈ ms)
    (hstrict : List.Chain' (· < ·) (fm.pts.map Prod.snd) ∨
      List.Chain' (fun a b : ℚ => b < a) (fm.pts.map Prod.snd))
    (c : ℚ) (hc1 : fm.tmin ≤ c) (hc2 : c ≤ fm.tmax) (Et : ℚ)
    (hEt : interpEval fm c = some Et) :
    ∃ ts Ep, invert_family fm Et = .ok (ts, Ep) ∧
      |ts - c| ≤ (fm.tmax - fm.tmin) / 2 ^ (brentqMaxIter + 1) := by
  obtain ⟨hlen, hchain, hderivs, htmin, htmax, hEmin, hEmax, hmemf⟩ :=
    build_model_facts ph ms fam fm hb hm
  have hEt2 : evalSeg fm.pts fm.derivs c = Et := by
    unfold interpEval at hEt
    rw [if_neg (by push_neg; exact ⟨hc1, hc2⟩)] at hEt
    exact Option.some.inj hEt
  have hGc : (fun t => evalSeg fm.pts fm.derivs t - Et) c = 0 := by
    simp only
    rw [hEt2]
    ring
  rcases hstrict with hinc | hdec
  · have hmono : ∀ x y, fm.tmin ≤ x → x < y → y ≤ fm.tmax →
        (fun t => evalSeg fm.pts fm.derivs t - Et) x <
          (fun t => evalSeg fm.pts fm.derivs t - Et) y := by
      intro x y hx hxy hy
      simp only
      have h := evalSeg_strictMono fm.pts (pchipDerivs fm.pts)
        (segOK_pchipDerivs fm.pts hlen hchain (List.Chain'.imp (fun a b hab => le_of_lt hab) hinc))
        hinc x y (by rw [← htmin]; exact hx) hxy (by rw [← htmax]; exact hy)
      rw [← hderivs] at h
      linarith
    obtain ⟨r, hr, hrb⟩ := brentqBisect_close
      (fun t => evalSeg fm.pts fm.derivs t - Et) fm.tmin fm.tmax c hmono hGc hc1 hc2
    refine ⟨r, evalSeg fm.pts fm.derivs r, ?_, hrb⟩
    unfold invert_family
    rw [hr]
  · have hG2c : (fun t => Et - evalSeg fm.pts fm.derivs t) c = 0 := by
      simp only
      rw [hEt2]
      ring
    have hmono2 : ∀ x y, fm.tmin ≤ x → x < y → y ≤ fm.tmax →
        (fun t => Et - evalSeg fm.pts fm.derivs t) x <
          (fun t => Et - evalSeg fm.pts fm.derivs t) y := by
      intro x y hx hxy hy
      simp only
      have h := evalSeg_strictAnti fm.pts hlen hchain hdec x y
        (by rw [← htmin]; exact hx) hxy (by rw [← htmax]; exact hy)
      rw [← hderivs] at h
      linarith
    obtain ⟨r, hr, hrb⟩ := brentqBisect_close
      (fun t => Et - evalSeg fm.pts fm.derivs t) fm.tmin fm.tmax c hmono2 hG2c hc1 hc2
    have hkey : brentqBisect (fun t => evalSeg fm.pts fm.derivs t - Et)
        fm.tmin fm.tmax = .ok r := by
      have hfe : (fun t => evalSeg fm.pts fm.derivs t - Et) =
          (fun x => -((fun t => Et - evalSeg fm.pts fm.derivs t) x)) := by
        funext t
        simp only
        ring
      rw [hfe, brentqBisect_negEq (fun t => Et - evalSeg fm.pts fm.derivs t)
        fm.tmin fm.tmax, hr]
    refine ⟨r, evalSeg fm.pts fm.derivs r, ?_, hrb⟩
    unfold invert_family
    rw [hkey]

theorem c7_witness :
    ∃ ts Ep, invert_family fmIncr 10 = .ok (ts, Ep) ∧
      |ts - 0| ≤ (fmIncr.tmax - fmIncr.tmin) / 2 ^ (brentqMaxIter + 1) :=
  c7_inversion_recovers_concentration phIncr [("F1", fmIncr)] "F1" fmIncr
    build_phIncr (by simp)
    (Or.inl (by norm_num [fmIncr, List.chain'_cons])) 0
    (by norm_num [fmIncr]) (by norm_num [fmIncr]) 10
    (by norm_num [interpEval, fmIncr, evalSeg, hermite])

theorem bisect_first_midpoint_root (g : ℚ → ℚ) (n : ℕ) (a b : ℚ)
    (h : g ((a + b) / 2) = 0) : bisect g (n + 1) a b = (a + b) / 2 := by
  simp [bisect, h]

theorem c7_counterexample :
    build_family_models phPlat = .ok [("F3", fmPlat)] ∧
    List.Chain' (· ≤ ·) (fmPlat.pts.map Prod.snd) ∧
    2 ≤ fmPlat.pts.length ∧
    fmPlat.tmin ≤ 6 / 5 ∧ (6 / 5 : ℚ) ≤ fmPlat.tmax ∧
    interpEval fmPlat (6 / 5) = some 1 ∧
    invert_family fmPlat 1 = .ok (3 / 2, 1) ∧
    ¬ |(3 / 2 : ℚ) - 6 / 5| ≤ (fmPlat.tmax - fmPlat.tmin) / 2 ^ (brentqMaxIter + 1) := by
  refine ⟨build_phPlat, ?_, ?_, ?_, ?_, ?_, ?_, ?_⟩
  · norm_num [fmPlat, List.chain'_cons]
  · norm_num [fmPlat]
  · norm_num [fmPlat]
  · norm_num [fmPlat]
  · norm_num [interpEval, fmPlat, evalSeg, hermite]
  · have hb : bisect (fun t => evalSeg fmPlat.pts fmPlat.derivs t - 1) 100 0 3 =
        3 / 2 := by
      rw [show (100:ℕ) = 99 + 1 by norm_num,
        bisect_first_midpoint_root _ _ _ _ (by norm_num [fmPlat, evalSeg, hermite])]
      norm_num
    norm_num [invert_family, brentqBisect, brentqMaxIter, fmPlat, evalSeg,
      hermite] at hb ⊢
    rw [hb]
    norm_num
  · rw [show |(3 / 2 : ℚ) - 6 / 5| = 3 / 10 by rw [abs_of_nonneg] <;> norm_num]
    rw [show fmPlat.tmax - fmPlat.tmin = 3 by norm_num [fmPlat]]
    intro hc
    rw [div_le_div_iff₀ (by norm_num) (by positivity)] at hc
    norm_num [brentqMaxIter] at hc
